/-
Verification of the unified-FGD manager (unify_fgd.py) and the
comp_adv_output BSP transform (transforms/comp_adv_output.py).

The Python code is shallowly embedded:
  * a Python `frozenset` of tag strings becomes `Finset String`;
  * a Python `dict` (insertion ordered, unique keys) becomes an
    association list `List (K × V)` together with the exact dict
    operations (`dlookup`, `dassign`, `ddel`): assignment replaces the
    value in place when the key exists and appends otherwise, deletion
    removes the (unique) entry;
  * exceptions become `Except` / explicit error results.
-/
import Mathlib

set_option maxRecDepth 10000
set_option maxHeartbeats 1000000

/-! ## Python dict primitives -/

/-- Lookup in an insertion-ordered association list, first matching key. -/
def dlookup {K V : Type} [DecidableEq K] : List (K × V) → K → Option V
  | [], _ => none
  | (k, v) :: rest, key => if k = key then some v else dlookup rest key

/-- Python dict assignment `d[key] = val`: replace in place if present,
append at the end otherwise. -/
def dassign {K V : Type} [DecidableEq K] : List (K × V) → K → V → List (K × V)
  | [], key, val => [(key, val)]
  | (k, v) :: rest, key, val =>
    if k = key then (k, val) :: rest else (k, v) :: dassign rest key val

/-- Python dict deletion `del d[key]` (entry assumed unique). -/
def ddel {K V : Type} [DecidableEq K] : List (K × V) → K → List (K × V)
  | [], _ => []
  | (k, v) :: rest, key => if k = key then rest else (k, v) :: ddel rest key

/-- The keys of an association list, in order. -/
def dkeys {K V : Type} (m : List (K × V)) : List K := m.map Prod.fst

/-- First entry whose value equals the target (Python
`for old_tag, old_value in d.items(): if old_value == new_value: ...`). -/
def findByValue {K V : Type} [DecidableEq V] : List (K × V) → V → Option (K × V)
  | [], _ => none
  | (k, v) :: rest, target =>
    if v = target then some (k, v) else findByValue rest target

/-! ## Tag vocabulary (GAMES, FEATURES) -/

/-- Python `str.upper` (character-wise upper-casing; the tags involved
are ASCII). -/
def pyUpper (s : String) : String :=
  ⟨s.data.map Char.toUpper⟩

/-- Chronological order of games (`GAME_ORDER` in the source). -/
def GAME_ORDER : List String :=
  ["HLS", "DODS", "CSS", "HL2", "EP1", "EP2", "TF2", "P1", "L4D",
   "L4D2", "ASW", "P2", "CSGO", "SFM", "DOTA2", "PUNT", "P2DES"]

/-- Feature bundles backported to various games (`FEATURES` in the source). -/
def FEATURES : List (String × Finset String) :=
  [("L4D", {"INSTANCING"}),
   ("TF2", {"INSTANCING", "PROP_SCALING"}),
   ("ASW", {"INSTANCING", "VSCRIPT"}),
   ("P2", {"INSTANCING", "VSCRIPT"}),
   ("CSGO", {"INSTANCING", "PROP_SCALING", "VSCRIPT"}),
   ("P2DES", {"INSTANCING", "PROP_SCALING", "VSCRIPT"})]

/-- `FEATURES[key]` with the `KeyError` swallowed (`try ... except KeyError`):
a missing key contributes nothing. -/
def featLookup (key : String) : Finset String :=
  ((FEATURES.find? (fun p => p.1 = key)).map Prod.snd).getD ∅

/-- `list.index` returning an option (`except ValueError` in the source). -/
def listIndex : List String → String → Option Nat
  | [], _ => none
  | g :: rest, s => if g = s then some 0 else (listIndex rest s).map (· + 1)

/-- The SINCE_/UNTIL_ tags contributed by one tag naming a release:
`SINCE_<r>` for every release up to and including it in `GAME_ORDER`,
`UNTIL_<r>` for every release after it. -/
def sinceUntil (tag : String) : Finset String :=
  match listIndex GAME_ORDER (pyUpper tag) with
  | none => ∅
  | some pos =>
    ((GAME_ORDER.take (pos + 1)).map (fun g => "SINCE_" ++ g)).toFinset ∪
    ((GAME_ORDER.drop (pos + 1)).map (fun g => "UNTIL_" ++ g)).toFinset

/-- All tags contributed by expanding one input tag: its feature bundle
(if it names one) and its SINCE_/UNTIL_ range (if it names a release). -/
def auxTags (tag : String) : Finset String :=
  featLookup (pyUpper tag) ∪ sinceUntil tag

/-- `expand_tags` from the source: the input tags plus everything each
one contributes. -/
def expand_tags (tags : Finset String) : Finset String :=
  tags ∪ tags.biUnion auxTags

/-! ## add_tag -/

/-- `new_tag.startswith(('!', '-'))`. -/
def isNegPrefixed (s : String) : Bool :=
  match s.data with
  | c :: _ => c = '!' || c = '-'
  | [] => false

/-- `new_tag[1:]`: the string without its first character. -/
def strTail (s : String) : String :=
  ⟨s.data.drop 1⟩

/-- `add_tag` from the source: modify the tags so that they allow the new
tag.  A negation-prefixed tag removes the bare token and is inserted
verbatim; a positive tag removes both negated forms and is inserted in
upper case unless a required-positive `+TOKEN` guard is present. -/
def add_tag (tags : Finset String) (new_tag : String) : Finset String :=
  if isNegPrefixed new_tag then
    insert new_tag (tags.erase (strTail new_tag))
  else
    let u := pyUpper new_tag
    let s := (tags.erase ("!" ++ u)).erase ("-" ++ u)
    if ("+" ++ u) ∈ s then s else insert u s

/-! ## Sorting of applies-to argument lists (Python sorted on strings) -/

/-- Lexicographic code-point order on character lists (the order Python
uses to compare strings). -/
def charsLe : List Char → List Char → Bool
  | [], _ => true
  | _ :: _, [] => false
  | a :: as, b :: bs =>
    decide (a.toNat < b.toNat) || (decide (a.toNat = b.toNat) && charsLe as bs)

/-- Boolean string order used by `sorted` (lexicographic by code point). -/
def strLe (a b : String) : Bool := charsLe a.data b.data

/-- Stable insertion into an ascending list. -/
def strInsertSorted (a : String) : List String → List String
  | [] => [a]
  | b :: bs => if strLe a b then a :: b :: bs else b :: strInsertSorted a bs

/-- Ascending insertion sort; agrees with Python `sorted` on lists of
distinct strings. -/
def strSort (l : List String) : List String := l.foldr strInsertSorted []

/-- `sorted(set(xs))`: deduplicate, then sort ascending. -/
def sortedSet (l : List String) : List String := strSort l.dedup

/-! ## Entity model -/

/-- The helper kinds this development distinguishes; every other helper
type of the source enum is carried opaquely by name. -/
inductive HelperTypes : Type
  | EXT_APPLIES_TO
  | EXT_ORDERBY
  | OTHER (name : String)
deriving DecidableEq

/-- A helper directive: a kind and its argument strings, as in the
`ent.helpers` list of `(helper_type, args)` tuples. -/
abbrev Helper : Type := HelperTypes × List String

/-- The entity kinds distinguished by `ent_path`; all remaining members
of the source enum are carried opaquely by name. -/
inductive EntityTypes : Type
  | BASE
  | BRUSH
  | POINT
  | OTHER (name : String)
deriving DecidableEq

/-- One key's tagged alternatives: an insertion-ordered dict from
frozen tag sets to definitions. -/
abbrev TagMap (V : Type) : Type := List (Finset String × V)

/-- An `EntityDef`: classname, kind, description, base list, helper list
and the three category dicts.  `V` is the definition payload
(`KeyValues` / `IODef`), compared by structural equality. -/
structure EntityDef (V : Type) where
  classname : String
  type : EntityTypes
  desc : String
  bases : List String
  helpers : List Helper
  keyvalues : List (String × TagMap V)
  inputs : List (String × TagMap V)
  outputs : List (String × TagMap V)
deriving DecidableEq

/-! ## get_appliesto -/

/-- Index of the first `EXT_APPLIES_TO` helper, if any (`pos` in the
source). -/
def firstAppliesIdx : List Helper → Option Nat
  | [] => none
  | h :: rest =>
    if h.1 = HelperTypes.EXT_APPLIES_TO then some 0
    else (firstAppliesIdx rest).map (· + 1)

/-- All arguments of all `EXT_APPLIES_TO` helpers, concatenated in order
(the `applies_to` set before sorting). -/
def appliesArgsRaw (hs : List Helper) : List String :=
  (hs.filter (fun h => h.1 = HelperTypes.EXT_APPLIES_TO)).foldr
    (fun h acc => h.2 ++ acc) []

/-- `sorted(applies_to)`: the canonical argument list `get_appliesto`
computes. -/
def appliesArgsSorted (hs : List Helper) : List String :=
  sortedSet (appliesArgsRaw hs)

/-- The helpers with every `EXT_APPLIES_TO` removed. -/
def nonApplies (hs : List Helper) : List Helper :=
  hs.filter (fun h => ¬ h.1 = HelperTypes.EXT_APPLIES_TO)

/-- Python `list.insert(pos, a)` (clamps the position). -/
def insertAt {α : Type} (l : List α) (n : Nat) (a : α) : List α :=
  l.take n ++ a :: l.drop n

/-- The helper list after `get_appliesto` reinstalls the single canonical
`EXT_APPLIES_TO` helper carrying `args` at the position of the first
original occurrence. -/
def appliesNormalized (hs : List Helper) (args : List String) : List Helper :=
  insertAt (nonApplies hs) ((firstAppliesIdx hs).getD 0)
    (HelperTypes.EXT_APPLIES_TO, args)

/-! ## Import merge -/

/-- Python `in` on strings: substring containment. -/
def isSubstr (needle hay : String) : Bool :=
  decide (needle.data <:+: hay.data)

/-- `for x in new: if x not in acc: acc.append(x)` — union preserving
order, as used for bases and helpers. -/
def foldAppendNew {α : Type} [DecidableEq α] (acc l : List α) : List α :=
  l.foldl (fun a x => if x ∈ a then a else a ++ [x]) acc

/-- One step of the per-key merge loop: look for an old definition equal
by value; if found and the new tag set is non-empty, move that entry to
its widened tag (a Python del followed by an assignment, so the entry
moves to the end); if found and the new tag set is empty, leave the dict
unchanged; if not found, insert under the new toggled tag. -/
def mergeStep {V : Type} [DecidableEq V] (engine : String)
    (acc : TagMap V) (p : Finset String × V) : TagMap V :=
  match findByValue acc p.2 with
  | some (oldTag, _) =>
    if p.1 = ∅ then acc
    else dassign (ddel acc oldTag) (add_tag oldTag engine) p.2
  | none => dassign acc (add_tag p.1 engine) p.2

/-- Merge a new tagged-alternatives dict into an existing one
(`action_import`, inner loops over `tag_map.items()`). -/
def mergeTagMap {V : Type} [DecidableEq V] (engine : String)
    (orig newm : TagMap V) : TagMap V :=
  newm.foldl (mergeStep engine) orig

/-- The dict comprehension rekeying every alternative
(`{add_tag(tag, t): value for tag, value in tag_map.items()}`);
colliding rekeyed tags are merged with the later value winning. -/
def retagMap {V : Type} (f : Finset String → Finset String)
    (m : TagMap V) : TagMap V :=
  m.foldl (fun acc p => dassign acc (f p.1) p.2) []

/-- First loop of the category merge: fold every new key name into the
current category dict. -/
def mergeCatNew {V : Type} [DecidableEq V] (engine : String)
    (cur newm : List (String × TagMap V)) : List (String × TagMap V) :=
  newm.foldl
    (fun acc p =>
      match dlookup acc p.1 with
      | none => dassign acc p.1 (retagMap (fun t => add_tag t engine) p.2)
      | some orig => dassign acc p.1 (mergeTagMap engine orig p.2))
    cur

/-- Second loop: every key name absent from the new fragment has all its
alternatives re-keyed by the negated engine tag. -/
def mergeCatAbsent {V : Type} (engine : String) (newNames : List String)
    (cur : List (String × TagMap V)) : List (String × TagMap V) :=
  cur.map (fun p =>
    if p.1 ∈ newNames then p
    else (p.1, retagMap (fun t => add_tag t ("!" ++ engine)) p.2))

/-- Merge one category (`keyvalues` / `inputs` / `outputs`). -/
def mergeCat {V : Type} [DecidableEq V] (engine : String)
    (cur newm : List (String × TagMap V)) : List (String × TagMap V) :=
  mergeCatAbsent engine (dkeys newm) (mergeCatNew engine cur newm)

/-- The entity-level merge of `action_import` (description append, base
and helper union, three category merges). -/
def mergeEntity {V : Type} [DecidableEq V] (engine : String)
    (ent newEnt : EntityDef V) : EntityDef V :=
  { classname := ent.classname
    type := ent.type
    desc :=
      if isSubstr newEnt.desc ent.desc then ent.desc
      else ent.desc ++ "|||" ++ newEnt.desc
    bases := foldAppendNew ent.bases newEnt.bases
    helpers := foldAppendNew ent.helpers newEnt.helpers
    keyvalues := mergeCat engine ent.keyvalues newEnt.keyvalues
    inputs := mergeCat engine ent.inputs newEnt.inputs
    outputs := mergeCat engine ent.outputs newEnt.outputs }

/-- Import one entity against an optional existing database entity:
merge if present, take the new entity verbatim otherwise, then normalize
the applies-to helper and append the engine tag to its argument list if
missing. -/
def importEntity {V : Type} [DecidableEq V] (engine : String)
    (old : Option (EntityDef V)) (newEnt : EntityDef V) : EntityDef V :=
  let ent :=
    match old with
    | some e => mergeEntity engine e newEnt
    | none => newEnt
  let args := appliesArgsSorted ent.helpers
  let args2 := if engine ∈ args then args else args ++ [engine]
  { ent with helpers := appliesNormalized ent.helpers args2 }

/-! ## ent_path and the import loop over the database directory -/

/-- `ent_path` from the source (note the `point/` folder keeps its
trailing slash, so those paths contain a double slash). -/
def ent_path {V : Type} (ent : EntityDef V) : String :=
  if ent.classname = "worldspawn" then "worldspawn.fgd"
  else
    let folder :=
      match ent.type with
      | EntityTypes.BASE => "bases"
      | EntityTypes.BRUSH => "brush"
      | _ => "point/"
    folder ++ "/" ++ ent.classname ++ ".fgd"

/-- The database directory: a map from relative path to the parsed
entities of that fragment file (keyed by classname). -/
abbrev FgdFile (V : Type) : Type := List (String × EntityDef V)
abbrev FileSys (V : Type) : Type := List (String × FgdFile V)

/-- One iteration of the import loop: if the canonical path already
exists, the old file must contain the classname (otherwise
`ValueError("Classname not present in FGD!")`), and the whole old file
is rewritten with the merged entity; otherwise the new entity alone is
written. -/
def importStep {V : Type} [DecidableEq V] (engine : String)
    (db : FileSys V) (newEnt : EntityDef V) : Except String (FileSys V) :=
  let path := ent_path newEnt
  match dlookup db path with
  | some oldFgd =>
    match dlookup oldFgd newEnt.classname with
    | none => Except.error "Classname not present in FGD!"
    | some ent =>
      let merged := importEntity engine (some ent) newEnt
      Except.ok (dassign db path (dassign oldFgd newEnt.classname merged))
  | none =>
    Except.ok (dassign db path [(newEnt.classname, importEntity engine none newEnt)])

/-- The import loop of `action_import`: entities are processed in order;
an uncaught exception stops the loop, keeping the files already
written. -/
def action_import {V : Type} [DecidableEq V] (engine : String)
    (db : FileSys V) : List (EntityDef V) → FileSys V × Option String
  | [] => (db, none)
  | e :: rest =>
    match importStep engine db e with
    | Except.error msg => (db, some msg)
    | Except.ok db2 => action_import engine db2 rest

/-! ## Engine-mode export: per-key collapsing -/

/-- The value kinds this development distinguishes (`ValueTypes` in
srctools); every other member of the enum is carried opaquely by name. -/
inductive ValueTypes : Type
  | STRING
  | INT
  | CHOICES
  | OTHER (name : String)
deriving DecidableEq

/-- The payload of one tagged alternative as engine-mode export sees it:
its value kind, description, whether it is a `KeyValues` (as opposed to
an `IODef`), and the choices list (`val_list`) when present. -/
structure EngVal : Type where
  type : ValueTypes
  desc : String
  isKV : Bool
  val_list : Option (List (String × String × Finset String))
deriving DecidableEq

/-- Admissibility for Python `int(str)` (external builtin): optional
surrounding whitespace, an optional sign, then one or more digits
(digit-group underscores are not modelled; no claim depends on them). -/
def int_parseable (s : String) : Bool :=
  let t := ((s.data.dropWhile (fun c => c.isWhitespace)).reverse.dropWhile
    (fun c => c.isWhitespace)).reverse
  match t with
  | '+' :: ds => !ds.isEmpty && ds.all Char.isDigit
  | '-' :: ds => !ds.isEmpty && ds.all Char.isDigit
  | ds => !ds.isEmpty && ds.all Char.isDigit

/-- The frozenset `{'ENGINE'}` (`tags_engine` in the source). -/
def tags_engine : Finset String := {"ENGINE"}

/-- The empty frozenset (`tags_empty` in the source). -/
def tags_empty : Finset String := ∅

/-- The fallback pick of engine-mode export:
`sorted(tag_map.items(), key=len(t[0]))[0]` — the sort is stable, so
this is the first entry (in dict order) whose tag set has minimal
cardinality. -/
def minByTagLen (hd : Finset String × EngVal) (tl : TagMap EngVal) :
    Finset String × EngVal :=
  tl.foldl (fun best p => if p.1.card < best.1.card then p else best) hd

/-- The in-place CHOICES conversion: for a `KeyValues`, retype to INT if
every raw choice value parses as an integer, to STRING otherwise, and
drop the choice list. An `IODef` is left unchanged. -/
def convertChoices (v : EngVal) : EngVal :=
  if v.isKV then
    { v with
      type :=
        if ((v.val_list.getD []).map (fun c => c.1)).all int_parseable
        then ValueTypes.INT else ValueTypes.STRING
      val_list := none }
  else v

/-- The tail of the per-key merge: convert a CHOICES value (collecting
the diagnostic), blank the description, and return the single value the
category entry is rewritten to. -/
def resolveTail (cn key : String) (msgs : List String) (value : EngVal) :
    List String × EngVal :=
  let step :=
    if value.type = ValueTypes.CHOICES then
      (msgs ++ [cn ++ "." ++ key ++ " uses CHOICES type, provide ENGINE tag!"],
       convertChoices value)
    else (msgs, value)
  (step.1, { step.2 with desc := "" })

/-- Engine-mode resolution of one key's tagged alternatives
(`action_export`, engine branch): a single alternative is taken as is;
otherwise an alternative keyed exactly `{'ENGINE'}` wins but must not be
CHOICES (fatal `ValueError`); otherwise the alternative with the fewest
tags is picked, with a diagnostic when more than two distinct value
kinds are present.  Returns the printed diagnostics and the final
value. -/
def resolveKey (cn key : String) : TagMap EngVal →
    Except String (List String × EngVal)
  | [] => Except.error "list index out of range"
  | [p] => Except.ok (resolveTail cn key [] p.2)
  | p :: q :: rest =>
    match dlookup (p :: q :: rest) tags_engine with
    | some v =>
      if v.type = ValueTypes.CHOICES then
        Except.error (cn ++ "." ++ key ++ ": Engine tags cannot be CHOICES!")
      else Except.ok (resolveTail cn key [] v)
    | none =>
      let types := ((p :: q :: rest).map (fun e => e.2.type)).dedup
      let msgs :=
        if 2 < types.length then [cn ++ "." ++ key ++ " has multiple types!"]
        else []
      Except.ok (resolveTail cn key msgs (minByTagLen p (q :: rest)).2)

/-- Effectful map over a list that stops at the first raised error (the
Python for-loop an uncaught exception escapes from). -/
def exceptMapM {A B : Type} (f : A → Except String B) :
    List A → Except String (List B)
  | [] => Except.ok []
  | a :: rest =>
    match f a with
    | Except.error e => Except.error e
    | Except.ok b => (exceptMapM f rest).map (fun bs => b :: bs)

/-- Process one category in engine mode: every key is rewritten to a
single-entry dict keyed by the empty tag set. -/
def engineProcessCat (cn : String)
    (cat : List (String × TagMap EngVal)) :
    Except String (List (String × TagMap EngVal)) :=
  exceptMapM (fun p =>
    (resolveKey cn p.1 p.2).map (fun r => (p.1, [(tags_empty, r.2)]))) cat

/-- Process one entity in engine mode: strip the applies-to and ordering
helpers, then collapse the three categories (the source iterates
inputs, outputs, keyvalues in that order). -/
def engineProcessEnt (ent : EntityDef EngVal) :
    Except String (EntityDef EngVal) := do
  let inp ← engineProcessCat ent.classname ent.inputs
  let outp ← engineProcessCat ent.classname ent.outputs
  let kv ← engineProcessCat ent.classname ent.keyvalues
  Except.ok
    { ent with
      helpers := ent.helpers.filter (fun h =>
        ¬ h.1 = HelperTypes.EXT_APPLIES_TO ∧ ¬ h.1 = HelperTypes.EXT_ORDERBY)
      inputs := inp
      outputs := outp
      keyvalues := kv }

/-- The tag-merging phase of engine-mode export over all entities; an
uncaught `ValueError` aborts the whole invocation. -/
def engineMergePhase (ents : List (EntityDef EngVal)) :
    Except String (List (EntityDef EngVal)) :=
  exceptMapM engineProcessEnt ents

/-! ## Tagged-mode export -/

/-- Modelled from the spec: `EntityDef.strip_tags` comes from the
external srctools library (only its call site is in this repository).
Following section 4.5 of the spec it narrows every tagged-alternatives
dict of every category to the definitions selected by the requested
tags, and touches nothing else of the entity. -/
def strip_tags {V : Type}
    (matchTags : Finset String → Finset String → Bool)
    (tags : Finset String) (e : EntityDef V) : EntityDef V :=
  let narrow : List (String × TagMap V) → List (String × TagMap V) :=
    fun cat => cat.map (fun p => (p.1, p.2.filter (fun q => matchTags tags q.1)))
  { e with
    keyvalues := narrow e.keyvalues
    inputs := narrow e.inputs
    outputs := narrow e.outputs }

/-- Modelled from the spec: the category-inlining core of
`FGD.collapse_bases` (external srctools).  Section 4.5: repeatedly
inline BASE-kind ancestors' category entries into descendants,
first-wins on name collision.  Only category entries move; fuel bounds
the walk through the inheritance graph. -/
def inheritedCats {V : Type} [DecidableEq V]
    (db : List (String × EntityDef V)) :
    Nat → EntityDef V →
    List (String × TagMap V) × List (String × TagMap V) × List (String × TagMap V)
  | 0, e => (e.keyvalues, e.inputs, e.outputs)
  | fuel + 1, e =>
    e.bases.foldl
      (fun acc b =>
        match dlookup db b with
        | none => acc
        | some be =>
          let bc := inheritedCats db fuel be
          (acc.1 ++ bc.1.filter (fun p => dlookup acc.1 p.1 = none),
           acc.2.1 ++ bc.2.1.filter (fun p => dlookup acc.2.1 p.1 = none),
           acc.2.2 ++ bc.2.2.filter (fun p => dlookup acc.2.2 p.1 = none)))
      (e.keyvalues, e.inputs, e.outputs)

/-- Modelled from the spec: collapsing of a single entity — only the
three category fields change. -/
def collapseOne {V : Type} [DecidableEq V]
    (db : List (String × EntityDef V)) (p : String × EntityDef V) :
    String × EntityDef V :=
  (p.1,
    { p.2 with
      keyvalues := (inheritedCats db db.length p.2).1
      inputs := (inheritedCats db db.length p.2).2.1
      outputs := (inheritedCats db db.length p.2).2.2 })

/-- Modelled from the spec: `FGD.collapse_bases` (external srctools),
restricted to what section 4.5 specifies — category entries of BASE
ancestors are inlined; classname, kind, description and helper list are
not changed. -/
def collapse_bases {V : Type} [DecidableEq V]
    (db : List (String × EntityDef V)) : List (String × EntityDef V) :=
  db.map (collapseOne db)

/-- Tagged-mode export (`action_export`, non-engine branch): expand the
requested tags, keep only the entities whose normalized applies-to
argument list matches, strip their applies-to helper and narrow their
tags, collapse the bases, and finally drop every BASE-kind entity.
`matchTags` stands for the external srctools `match_tags` predicate
(first argument the expanded requested search tags, second the
candidate tags). -/
def taggedKeepOne {V : Type} [DecidableEq V]
    (matchTags : Finset String → Finset String → Bool)
    (tags : Finset String) (p : String × EntityDef V) :
    Option (String × EntityDef V) :=
  if matchTags tags (appliesArgsSorted p.2.helpers).toFinset then
    some (p.1, strip_tags matchTags tags
      { p.2 with helpers := nonApplies p.2.helpers })
  else none

def taggedExportDb {V : Type} [DecidableEq V]
    (matchTags : Finset String → Finset String → Bool)
    (tags0 : Finset String) (db : List (String × EntityDef V)) :
    List (String × EntityDef V) :=
  (collapse_bases
    (db.filterMap (taggedKeepOne matchTags (expand_tags tags0)))).filter
    (fun p => ¬ p.2.type = EntityTypes.BASE)

/-! ## comp_adv_output transform -/

/-- `SimpleFormatter.get_value` for an integer replacement-field key:
1-based indexes into the positional arguments; key 0 (or a negative key,
or an out-of-range index) raises, which the caller catches. -/
def formatterGetValue (key : Nat) (args : List String) : Option String :=
  if 0 < key then args.get? (key - 1) else none

/-- Digits to a natural number. -/
def digitsToNat (ds : List Char) : Nat :=
  ds.foldl (fun n c => 10 * n + (c.toNat - 48)) 0

/-- Modelled external collaborator: `string.Formatter.vformat` (Python
standard library) as driven by `SimpleFormatter`, restricted to format
strings made of literal text, brace escapes, and simple positional
fields such as `\x7b2\x7d`.  Any other replacement field is reported as
a failure; named fields would raise `KeyError` in `SimpleFormatter`
anyway. -/
def formatGo (args : List String) : Nat → List Char → Option String
  | 0, _ => none
  | _ + 1, [] => some ""
  | f + 1, '{' :: '{' :: rest => ((formatGo args f rest).map (fun t => "\x7b" ++ t))
  | f + 1, '}' :: '}' :: rest => ((formatGo args f rest).map (fun t => "\x7d" ++ t))
  | f + 1, '{' :: rest =>
    let digs := rest.takeWhile Char.isDigit
    match digs, rest.dropWhile Char.isDigit with
    | [], _ => none
    | _ :: _, '}' :: rest2 =>
      (formatterGetValue (digitsToNat digs) args).bind (fun v =>
        (formatGo args f rest2).map (fun t => v ++ t))
    | _ :: _, _ => none
  | _ + 1, '}' :: _ => none
  | f + 1, c :: rest => ((formatGo args f rest).map (fun t => String.singleton c ++ t))

/-- The modelled formatter applied to a whole format string. -/
def modelVFormat (fmt : String) (args : List String) : Option String :=
  formatGo args (fmt.data.length + 1) fmt.data

/-- One `comp_adv_output` entity as the transform reads it.  String
keyvalues are carried verbatim; `delay`, `delay2` and `times` carry the
results of the external srctools `conv_float` / `conv_int` parsers
(rationals stand in for Python floats: every branch the transform takes
depends only on ordering and addition). -/
structure AdvOut : Type where
  ctrl_enabled : Bool
  out_name : String
  inp_name : String
  target_local : String
  target_global : String
  target_instname : String
  times : Int
  delay : Rat
  delay2 : Rat
  params_pos : List String
  params_local : List String
  params_global : List String
  params_fmt : String
  out_ent : String
  origin : String

/-- One output connection as added by `found_ent.add_out(Output(...))`. -/
structure OutputDef : Type where
  output : String
  target : String
  input : String
  param : String
  delay : Rat
  times : Int
deriving DecidableEq

/-- Keyvalue lookup for the indexed parameter keys: index `i` names
`params_pos<i>` etc., an absent key reads as the empty string. -/
def idxStr (l : List String) (i : Nat) : String := (l.get? (i - 1)).getD ""

/-- `params_pos{i} or params_local{i} or params_global{i}`. -/
def paramAt (e : AdvOut) (i : Nat) : String :=
  if idxStr e.params_pos i ≠ "" then idxStr e.params_pos i
  else if idxStr e.params_local i ≠ "" then idxStr e.params_local i
  else idxStr e.params_global i

/-- The parameter-collection loop (`for ind in itertools.count(1)`): walk
indexes 1, 2, ... until the first empty value.  The fuel exceeds every
stored index, so it never cuts the loop short. -/
def collectParamsGo (e : AdvOut) : Nat → Nat → List String
  | _, 0 => []
  | i, f + 1 =>
    let v := paramAt e i
    if v = "" then [] else v :: collectParamsGo e (i + 1) f

/-- All collected positional parameters of one `comp_adv_output`. -/
def collectParams (e : AdvOut) : List String :=
  collectParamsGo e 1
    (e.params_pos.length + e.params_local.length + e.params_global.length + 1)

/-- Python `a or b` on strings. -/
def pyOr (a b : String) : String := if a ≠ "" then a else b

/-- Warning labels standing for the `LOGGER` messages of the transform. -/
def warnNoTarget : String := "No target entity for conv_adv_output!"

/-- Warning for a negative summed delay. -/
def warnNegDelay : String := "conv_adv_output has a negative delay!"

/-- Warning when the format string fails to format (LOGGER.exception). -/
def warnFormatFailed : String := "Failed to format comp_adv_output!"

/-- Warning when no entity matches `out_ent`. -/
def warnNoneFound : String := "No entities found for comp_adv_output!"

/-- The final parameter: the empty format string is used verbatim, a
non-empty one goes through the formatter and may fail. -/
def paramResult (vfmt : String → List String → Option String) (e : AdvOut) :
    Option String :=
  if e.params_fmt = "" then some e.params_fmt
  else vfmt e.params_fmt (collectParams e)

/-- Processing of a single `comp_adv_output` entity (`advanced_output`,
loop body).  `search` stands for `ctx.vmf.search` and `vfmt` for the
external formatter; the result is the list of emitted warnings plus, when
the entity is not skipped, the entities matched and the output added to
each of them. -/
def advancedOutputOne {E : Type} (search : String → List E)
    (vfmt : String → List String → Option String) (e : AdvOut) :
    List String × Option (List E × OutputDef) :=
  if ¬ e.ctrl_enabled then ([], none)
  else
    let targetName := pyOr e.target_local e.target_global
    if targetName = "" then ([warnNoTarget], none)
    else
      let targetName2 :=
        if e.target_instname ≠ "" then targetName ++ "-" ++ e.target_instname
        else targetName
      let d := e.delay + e.delay2
      let warns1 : List String := if d < 0 then [warnNegDelay] else []
      let delay : Rat := if d < 0 then 0 else d
      match paramResult vfmt e with
      | none => (warns1 ++ [warnFormatFailed], none)
      | some parameter =>
        let found := search e.out_ent
        (warns1 ++ (if found.isEmpty then [warnNoneFound] else []),
         some (found,
           { output := e.out_name, target := targetName2, input := e.inp_name,
             param := parameter, delay := delay, times := e.times }))

/-! ## Sample data used by the concrete counterexamples and witnesses -/

/-- Sample database entity for the end-to-end merge scenarios: classname
X with a single keyvalue k carrying one alternative tagged HL2. -/
def dbEntX (v : String) : EntityDef String :=
  { classname := "X", type := EntityTypes.POINT, desc := "old", bases := [],
    helpers := [(HelperTypes.EXT_APPLIES_TO, ["HL2"])],
    keyvalues := [("k", [({"HL2"}, v)])], inputs := [], outputs := [] }

/-- Sample untagged import fragment declaring X with keyvalue k. -/
def fragEntX (v : String) : EntityDef String :=
  { classname := "X", type := EntityTypes.POINT, desc := "frag", bases := [],
    helpers := [], keyvalues := [("k", [(∅, v)])], inputs := [], outputs := [] }

/-- Sample untagged import fragment declaring X without any keyvalue. -/
def fragEntXEmpty : EntityDef String :=
  { classname := "X", type := EntityTypes.POINT, desc := "frag", bases := [],
    helpers := [], keyvalues := [], inputs := [], outputs := [] }

/-- A bare point entity with the given classname (sample data). -/
def entPointNamed (cls : String) : EntityDef String :=
  { classname := cls, type := EntityTypes.POINT, desc := "", bases := [],
    helpers := [], keyvalues := [], inputs := [], outputs := [] }

/-- Sample database directory for the import-error scenario: the file at
the canonical path of classname foo exists but holds only bar. -/
def dbC4 : FileSys String :=
  [("point//foo.fgd", [("bar", entPointNamed "bar")])]

/-- Sample CHOICES value carried under the ENGINE tag. -/
def engValChoices : EngVal :=
  { type := ValueTypes.CHOICES, desc := "d", isKV := true, val_list := some [] }

/-- Sample scalar value. -/
def engValInt : EngVal :=
  { type := ValueTypes.INT, desc := "", isKV := true, val_list := none }

/-- Sample tagged alternatives with two entries, one keyed {ENGINE}. -/
def tmC5 : TagMap EngVal := [({"ENGINE"}, engValChoices), (∅, engValInt)]

/-- Sample entity carrying tmC5 under keyvalue key. -/
def entC5 : EntityDef EngVal :=
  { classname := "ent", type := EntityTypes.POINT, desc := "", bases := [],
    helpers := [], keyvalues := [("key", tmC5)], inputs := [], outputs := [] }

/-- Sample comp_adv_output entity: control enabled, resolvable target,
negative summed delay, and a format string whose only replacement field
is the invalid positional key 0. -/
def advC10 : AdvOut :=
  { ctrl_enabled := true, out_name := "OnTrigger", inp_name := "Trigger",
    target_local := "t", target_global := "", target_instname := "",
    times := -1, delay := -1, delay2 := 0, params_pos := [],
    params_local := [], params_global := [], params_fmt := "{0}",
    out_ent := "relay", origin := "0 0 0" }

/-- The same sample entity with an empty format string. -/
def advC10ok : AdvOut :=
  { advC10 with params_fmt := "" }

/-! ## Untagged fragments and helper-list equivalence (for idempotence) -/

/-- A tagged-alternatives dict of an untagged fragment: every entry
carries the empty tag set, and keys are dict-unique. -/
def untaggedMap {V : Type} (tm : TagMap V) : Prop :=
  (∀ p ∈ tm, p.1 = (∅ : Finset String)) ∧ (dkeys tm).Nodup

/-- A category dict of an untagged fragment. -/
def untaggedCat {V : Type} (cat : List (String × TagMap V)) : Prop :=
  (dkeys cat).Nodup ∧ ∀ p ∈ cat, untaggedMap p.2

/-- An untagged fragment entity, as section 4.4 of the spec assumes
(every definition implicitly carries the empty tag set). -/
def untaggedEnt {V : Type} (e : EntityDef V) : Prop :=
  untaggedCat e.keyvalues ∧ untaggedCat e.inputs ∧ untaggedCat e.outputs

/-- Position-wise helper comparison: equal, except that an applies-to
helper may carry its arguments in a different order. -/
def helperMatches (a b : Helper) : Prop :=
  a = b ∨ (a.1 = HelperTypes.EXT_APPLIES_TO ∧ b.1 = HelperTypes.EXT_APPLIES_TO ∧
    a.2.Perm b.2)

/-- Helper lists that agree up to the ordering of applies-to argument
lists. -/
def helpersEquiv (h1 h2 : List Helper) : Prop :=
  List.Forall₂ helperMatches h1 h2

/-- Entities that agree in every field, with helper lists agreeing up to
the ordering of applies-to argument lists. -/
def entEquivUpToApplies {V : Type} (e1 e2 : EntityDef V) : Prop :=
  e1.classname = e2.classname ∧ e1.type = e2.type ∧ e1.desc = e2.desc ∧
  e1.bases = e2.bases ∧ e1.keyvalues = e2.keyvalues ∧
  e1.inputs = e2.inputs ∧ e1.outputs = e2.outputs ∧
  helpersEquiv e1.helpers e2.helpers

/-- Every string that tag expansion can ever add: the three feature
names and the SINCE_/UNTIL_ token for every release. -/
def allAuxList : List String :=
  ["INSTANCING", "PROP_SCALING", "VSCRIPT"] ++
  GAME_ORDER.map (fun g => "SINCE_" ++ g) ++
  GAME_ORDER.map (fun g => "UNTIL_" ++ g)

instance {V : Type} (tm : TagMap V) : Decidable (untaggedMap tm) :=
  inferInstanceAs (Decidable (_ ∧ _))

instance {V : Type} (cat : List (String × TagMap V)) :
    Decidable (untaggedCat cat) :=
  inferInstanceAs (Decidable (_ ∧ _))

instance {V : Type} (e : EntityDef V) : Decidable (untaggedEnt e) :=
  inferInstanceAs (Decidable (_ ∧ _))

/-! ## General lemmas -/

theorem dlookup_dassign_self {K V : Type} [DecidableEq K]
    (m : List (K × V)) (k : K) (v : V) : dlookup (dassign m k v) k = some v := by
  induction m with
  | nil => simp [dassign, dlookup]
  | cons p rest ih =>
    by_cases h : p.1 = k
    · simp [dassign, dlookup, h]
    · simpa [dassign, dlookup, h] using ih

theorem dlookup_dassign_ne {K V : Type} [DecidableEq K]
    (m : List (K × V)) (k k2 : K) (v : V) (h : k ≠ k2) :
    dlookup (dassign m k v) k2 = dlookup m k2 := by
  induction m with
  | nil => simp [dassign, dlookup, h]
  | cons p rest ih =>
    by_cases hp : p.1 = k
    · simp [dassign, dlookup, hp, h]
    · simp [dassign, dlookup, hp, ih]

theorem dassign_of_dlookup_eq {K V : Type} [DecidableEq K]
    (m : List (K × V)) (k : K) (v : V) (h : dlookup m k = some v) :
    dassign m k v = m := by
  induction m with
  | nil => simp [dlookup] at h
  | cons p rest ih =>
    by_cases hp : p.1 = k
    · simp [dlookup, hp] at h
      cases p
      simp_all [dassign]
    · simp [dlookup, hp] at h
      simp [dassign, hp, ih h]

theorem findByValue_eq_some {K V : Type} [DecidableEq V]
    (m : List (K × V)) (v : V) (p : K × V) (h : findByValue m v = some p) :
    p ∈ m ∧ p.2 = v := by
  induction m with
  | nil => simp [findByValue] at h
  | cons q rest ih =>
    obtain ⟨k0, v0⟩ := q
    simp only [findByValue] at h
    by_cases hq : v0 = v
    · rw [if_pos hq] at h
      injection h with h2
      subst h2
      exact ⟨List.mem_cons_self _ _, hq⟩
    · rw [if_neg hq] at h
      rcases ih h with ⟨h1, h2⟩
      exact ⟨List.mem_cons_of_mem _ h1, h2⟩

theorem findByValue_isSome_of_mem {K V : Type} [DecidableEq V]
    (m : List (K × V)) (v : V) (p : K × V) (hp : p ∈ m) (hv : p.2 = v) :
    ∃ q, findByValue m v = some q := by
  induction m with
  | nil => simp at hp
  | cons q rest ih =>
    by_cases hq : q.2 = v
    · refine ⟨q, ?_⟩
      obtain ⟨k0, v0⟩ := q
      simp only [findByValue]
      rw [if_pos hq]
    · rcases List.mem_cons.mp hp with h | h
      · subst h; exact absurd hv hq
      · rcases ih h with ⟨r, hr⟩
        exact ⟨r, by simp [findByValue, hq, hr]⟩

theorem dassign_value_mem {K V : Type} [DecidableEq K]
    (m : List (K × V)) (k : K) (v : V) :
    ∃ q ∈ dassign m k v, q.2 = v := by
  induction m with
  | nil => exact ⟨(k, v), by simp [dassign]⟩
  | cons p rest ih =>
    by_cases hp : p.1 = k
    · exact ⟨(p.1, v), by simp [dassign, hp]⟩
    · rcases ih with ⟨q, hq, hv⟩
      exact ⟨q, by simp [dassign, hp, hq], hv⟩

theorem str_append_data (p X : String) : (p ++ X).data = p.data ++ X.data := by
  cases p
  cases X
  rfl

theorem str_cons_ne (c : Char) (p X : String) (hp : p.data = [c]) :
    X ≠ p ++ X := by
  intro h
  have hd := congrArg String.data h
  rw [str_append_data, hp] at hd
  have := congrArg List.length hd
  simp at this

theorem add_tag_neg (S : Finset String) (X : String) :
    add_tag S ("!" ++ X) = insert ("!" ++ X) (S.erase X) := by
  have hdata : ("!" ++ X).data = '!' :: X.data := by
    rw [str_append_data]; rfl
  have hneg : isNegPrefixed ("!" ++ X) = true := by
    rw [isNegPrefixed, hdata]; simp
  have htail : strTail ("!" ++ X) = X := by
    rw [strTail, hdata]
    cases X
    rfl
  rw [add_tag, if_pos hneg, htail]

/-- C9: toggling a negated tag into a tag set always yields a set that
contains the literal negated token and never contains the bare token. -/
theorem c9_toggle_negation (S : Finset String) (X : String) :
    ("!" ++ X) ∈ add_tag S ("!" ++ X) ∧ X ∉ add_tag S ("!" ++ X) := by
  rw [add_tag_neg]
  constructor
  · exact Finset.mem_insert_self _ _
  · intro hx
    rcases Finset.mem_insert.mp hx with h | h
    · exact str_cons_ne '!' "!" X rfl h
    · exact (Finset.mem_erase.mp h).1 rfl

theorem featLookup_subset_allAux (k : String) :
    featLookup k ⊆ allAuxList.toFinset := by
  rw [featLookup]
  rcases hf : FEATURES.find? (fun p => p.1 = k) with _ | p
  · rw [hf]; simp
  · rw [hf]
    have hp : p ∈ FEATURES := List.mem_of_find?_eq_some hf
    have hall : ∀ q ∈ FEATURES, q.2 ⊆ allAuxList.toFinset := by decide
    simpa using hall p hp

theorem sinceUntil_subset_allAux (t : String) :
    sinceUntil t ⊆ allAuxList.toFinset := by
  rw [sinceUntil]
  rcases hi : listIndex GAME_ORDER (pyUpper t) with _ | pos
  · simp
  · intro x hx
    simp only [Finset.mem_union, List.mem_toFinset, List.mem_map] at hx
    simp only [List.mem_toFinset, allAuxList, List.mem_append, List.mem_map]
    rcases hx with ⟨g, hg, rfl⟩ | ⟨g, hg, rfl⟩
    · exact Or.inl (Or.inr ⟨g, List.mem_of_mem_take hg, rfl⟩)
    · exact Or.inr ⟨g, List.mem_of_mem_drop hg, rfl⟩

theorem auxTags_subset_allAux (t : String) :
    auxTags t ⊆ allAuxList.toFinset := by
  rw [auxTags]
  exact Finset.union_subset (featLookup_subset_allAux _) (sinceUntil_subset_allAux _)

theorem auxTags_of_aux_empty :
    ∀ u ∈ allAuxList, auxTags u = ∅ := by decide

theorem biUnion_auxTags_of_biUnion (T : Finset String) :
    (T.biUnion auxTags).biUnion auxTags = ∅ := by
  apply Finset.eq_empty_of_forall_not_mem
  intro x hx
  rcases Finset.mem_biUnion.mp hx with ⟨u, hu, hxu⟩
  rcases Finset.mem_biUnion.mp hu with ⟨t, _, hut⟩
  have : u ∈ allAuxList.toFinset := auxTags_subset_allAux t hut
  rw [auxTags_of_aux_empty u (List.mem_toFinset.mp this)] at hxu
  exact absurd hxu (Finset.not_mem_empty x)

theorem finset_biUnion_union {α β : Type} [DecidableEq α] [DecidableEq β]
    (s t : Finset α) (f : α → Finset β) :
    (s ∪ t).biUnion f = s.biUnion f ∪ t.biUnion f := by
  apply Finset.ext
  intro x
  simp only [Finset.mem_biUnion, Finset.mem_union]
  constructor
  · rintro ⟨a, (ha | ha), hxa⟩
    · exact Or.inl ⟨a, ha, hxa⟩
    · exact Or.inr ⟨a, ha, hxa⟩
  · rintro (⟨a, ha, hxa⟩ | ⟨a, ha, hxa⟩)
    · exact ⟨a, Or.inl ha, hxa⟩
    · exact ⟨a, Or.inr ha, hxa⟩

/-- C8: tag expansion is idempotent. -/
theorem c8_expand_tags_idempotent (T : Finset String) :
    expand_tags (expand_tags T) = expand_tags T := by
  rw [expand_tags, expand_tags, finset_biUnion_union,
    biUnion_auxTags_of_biUnion, Finset.union_empty, Finset.union_assoc,
    Finset.union_self]

/-- C7: expanding a singleton release tag yields SINCE_ tags for every
release at or before it in the chronological order, UNTIL_ tags for
every release strictly after it, and the release's feature bundle. -/
theorem c7_expand_single_release :
    ∀ i < GAME_ORDER.length, ∀ j < GAME_ORDER.length,
      (j ≤ i → ("SINCE_" ++ GAME_ORDER.getD j "") ∈ expand_tags {GAME_ORDER.getD i ""}) ∧
      (i < j → ("UNTIL_" ++ GAME_ORDER.getD j "") ∈ expand_tags {GAME_ORDER.getD i ""}) ∧
      featLookup (GAME_ORDER.getD i "") ⊆ expand_tags {GAME_ORDER.getD i ""} := by
  decide

/-- Witness for C7, instantiated at TF2 (index 6) and HLS (index 0). -/
theorem c7_expand_single_release_witness :
    (6 < GAME_ORDER.length ∧ 0 < GAME_ORDER.length ∧ (0 : Nat) ≤ 6) ∧
    ("SINCE_" ++ GAME_ORDER.getD 0 "") ∈ expand_tags {GAME_ORDER.getD 6 ""} :=
  ⟨⟨by decide, by decide, by decide⟩,
    (c7_expand_single_release 6 (by decide) 0 (by decide)).1 (by decide)⟩

/-- C1 counterexample: importing an untagged fragment with the equal
value V1 under engine tag EP1 leaves the alternative keyed {HL2}
unchanged — the key is not rewritten to toggle({HL2}, EP1) = {HL2, EP1},
because the merge widens only when the fragment entry itself carries a
non-empty tag set. -/
theorem c1_counterexample :
    (importEntity "EP1" (some (dbEntX "V1")) (fragEntX "V1")).keyvalues
      = [("k", [({"HL2"}, "V1")])] ∧
    add_tag {"HL2"} "EP1" = {"HL2", "EP1"} ∧
    dlookup [({"HL2"}, "V1")] (add_tag {"HL2"} "EP1") = none := by
  decide

/-- C1 amended: importing the untagged fragment with the equal value V1
under EP1 leaves the single {HL2} alternative entirely unchanged (no
widening, and no second alternative); the subsequent import with a
different value V2 under EP2 appends one alternative keyed
toggle(empty, EP2) = {EP2} and leaves the first alternative untouched. -/
theorem c1_amended (v1 v2 : String) (hne : v1 ≠ v2) :
    (importEntity "EP1" (some (dbEntX v1)) (fragEntX v1)).keyvalues
      = [("k", [({"HL2"}, v1)])] ∧
    (importEntity "EP2"
        (some (importEntity "EP1" (some (dbEntX v1)) (fragEntX v1)))
        (fragEntX v2)).keyvalues
      = [("k", [({"HL2"}, v1), ({"EP2"}, v2)])] := by
  have h2 : add_tag ∅ "EP2" = {"EP2"} := by decide
  have h3 : ({"HL2"} : Finset String) ≠ {"EP2"} := by decide
  constructor
  · simp [importEntity, mergeEntity, mergeCat, mergeCatNew, mergeCatAbsent,
      mergeTagMap, mergeStep, findByValue, dlookup, dassign, dkeys, dbEntX,
      fragEntX]
  · simp [importEntity, mergeEntity, mergeCat, mergeCatNew, mergeCatAbsent,
      mergeTagMap, mergeStep, findByValue, dlookup, dassign, dkeys, dbEntX,
      fragEntX, hne, Ne.symm hne, h2, h3]

/-- Witness for C1 amended, at V1 and V2. -/
theorem c1_amended_witness :
    ("V1" ≠ "V2") ∧
    ((importEntity "EP1" (some (dbEntX "V1")) (fragEntX "V1")).keyvalues
      = [("k", [({"HL2"}, "V1")])] ∧
    (importEntity "EP2"
        (some (importEntity "EP1" (some (dbEntX "V1")) (fragEntX "V1")))
        (fragEntX "V2")).keyvalues
      = [("k", [({"HL2"}, "V1"), ({"EP2"}, "V2")])]) :=
  ⟨by decide, c1_amended "V1" "V2" (by decide)⟩

theorem dkeys_dassign_self {K V : Type} [DecidableEq K]
    (m : List (K × V)) (k : K) (v : V) : k ∈ dkeys (dassign m k v) := by
  induction m with
  | nil => simp [dassign, dkeys]
  | cons p rest ih =>
    by_cases hp : p.1 = k
    · simp [dassign, dkeys, hp]
    · simp only [dassign, if_neg hp, dkeys, List.map_cons, List.mem_cons]
      exact Or.inr ih

theorem dkeys_dassign_superset {K V : Type} [DecidableEq K]
    (m : List (K × V)) (k k2 : K) (v : V) (h : k2 ∈ dkeys m) :
    k2 ∈ dkeys (dassign m k v) := by
  induction m with
  | nil => simp [dkeys] at h
  | cons p rest ih =>
    by_cases hp : p.1 = k
    · simpa [dassign, dkeys, hp] using h
    · simp only [dkeys, List.map_cons, List.mem_cons] at h
      rcases h with h | h
      · simp [dassign, hp, dkeys, h]
      · simp only [dassign, if_neg hp, dkeys, List.map_cons, List.mem_cons]
        exact Or.inr (ih h)

theorem retag_fold_keys {V : Type} (f : Finset String → Finset String) :
    ∀ (m : TagMap V) (acc : TagMap V),
      (∀ k ∈ dkeys acc,
        k ∈ dkeys (List.foldl (fun a p => dassign a (f p.1) p.2) acc m)) ∧
      (∀ p ∈ m,
        f p.1 ∈ dkeys (List.foldl (fun a p => dassign a (f p.1) p.2) acc m)) := by
  intro m
  induction m with
  | nil => exact fun acc => ⟨fun k hk => by simpa using hk, by simp⟩
  | cons q rest ih =>
    intro acc
    have ihr := ih (dassign acc (f q.1) q.2)
    constructor
    · intro k hk
      simpa [List.foldl] using ihr.1 k (dkeys_dassign_superset _ _ _ _ hk)
    · intro p hp
      rcases List.mem_cons.mp hp with h | h
      · subst h
        simpa [List.foldl] using ihr.1 _ (dkeys_dassign_self _ _ _)
      · simpa [List.foldl] using ihr.2 p h

theorem retagMap_keys {V : Type} (f : Finset String → Finset String)
    (m : TagMap V) : ∀ p ∈ m, f p.1 ∈ dkeys (retagMap f m) :=
  (retag_fold_keys f m []).2

theorem dlookup_mergeCatNew_not_new {V : Type} [DecidableEq V]
    (engine : String) (newm : List (String × TagMap V)) :
    ∀ (cur : List (String × TagMap V)) (name : String),
      name ∉ dkeys newm →
      dlookup (mergeCatNew engine cur newm) name = dlookup cur name := by
  induction newm with
  | nil => intro cur name _; rfl
  | cons q rest ih =>
    intro cur name hname
    simp only [dkeys, List.map_cons, List.mem_cons] at hname
    push_neg at hname
    have hq : q.1 ≠ name := fun h => hname.1 h.symm
    have step :
        dlookup
          (match dlookup cur q.1 with
            | none => dassign cur q.1 (retagMap (fun t => add_tag t engine) q.2)
            | some orig => dassign cur q.1 (mergeTagMap engine orig q.2)) name
          = dlookup cur name := by
      rcases dlookup cur q.1 with _ | orig
      · exact dlookup_dassign_ne _ _ _ _ hq
      · exact dlookup_dassign_ne _ _ _ _ hq
    rw [mergeCatNew, List.foldl_cons]
    have hrest : name ∉ dkeys rest := by
      simpa [dkeys] using hname.2
    rcases hcur : dlookup cur q.1 with _ | orig
    · rw [← mergeCatNew]
      rw [ih _ name hrest]
      simpa [hcur] using step
    · rw [← mergeCatNew]
      rw [ih _ name hrest]
      simpa [hcur] using step

theorem dlookup_mergeCatAbsent_not_new {V : Type} (engine : String)
    (newNames : List String) (cur : List (String × TagMap V)) (name : String)
    (hname : name ∉ newNames) :
    dlookup (mergeCatAbsent engine newNames cur) name
      = (dlookup cur name).map (retagMap (fun t => add_tag t ("!" ++ engine))) := by
  induction cur with
  | nil => rfl
  | cons p rest ih =>
    obtain ⟨k0, m0⟩ := p
    simp only [mergeCatAbsent, List.map_cons] at ih ⊢
    by_cases hmem : k0 ∈ newNames
    · rw [if_pos hmem]
      by_cases hp : k0 = name
      · exact absurd (hp ▸ hmem) hname
      · simp only [dlookup, if_neg hp]
        exact ih
    · rw [if_neg hmem]
      by_cases hp : k0 = name
      · simp [dlookup, hp]
      · simp only [dlookup, if_neg hp]
        exact ih

theorem add_tag_pos_spec (S : Finset String) (E : String)
    (hpos : isNegPrefixed E = false) (hup : pyUpper E = E) :
    add_tag S E =
      if ("+" ++ E) ∈ (S.erase ("!" ++ E)).erase ("-" ++ E)
      then (S.erase ("!" ++ E)).erase ("-" ++ E)
      else insert E ((S.erase ("!" ++ E)).erase ("-" ++ E)) := by
  rw [add_tag, if_neg (by simp [hpos]), hup]

theorem neg_engine_not_mem_add_tag_pos (S : Finset String) (E : String)
    (hpos : isNegPrefixed E = false) (hup : pyUpper E = E) :
    ("!" ++ E) ∉ add_tag S E := by
  rw [add_tag_pos_spec S E hpos hup]
  have herase : ("!" ++ E) ∉ (S.erase ("!" ++ E)).erase ("-" ++ E) := by
    intro h
    exact (Finset.mem_erase.mp (Finset.mem_erase.mp h).2).1 rfl
  by_cases hplus : ("+" ++ E) ∈ (S.erase ("!" ++ E)).erase ("-" ++ E)
  · rw [if_pos hplus]; exact herase
  · rw [if_neg hplus]
    intro h
    rcases Finset.mem_insert.mp h with h | h
    · exact str_cons_ne '!' "!" E rfl h.symm
    · exact herase h

theorem engine_mem_add_tag_pos (S : Finset String) (E : String)
    (hpos : isNegPrefixed E = false) (hup : pyUpper E = E)
    (hguard : ("+" ++ E) ∉ S) : E ∈ add_tag S E := by
  rw [add_tag_pos_spec S E hpos hup]
  have : ("+" ++ E) ∉ (S.erase ("!" ++ E)).erase ("-" ++ E) := by
    intro h
    exact hguard (Finset.mem_of_mem_erase (Finset.mem_of_mem_erase h))
  rw [if_neg this]
  exact Finset.mem_insert_self _ _

/-- C2 counterexample: after an import without key k narrowed the
alternative to tag set containing the literal negation, a later untagged
re-import of k with the equal stored value leaves the negation in place
(the restoration path runs only for fragment entries carrying a
non-empty tag set). -/
theorem c2_counterexample :
    (importEntity "EP1"
        (some (importEntity "EP1" (some (dbEntX "V")) fragEntXEmpty))
        (fragEntX "V")).keyvalues
      = [("k", [({"!EP1", "HL2"}, "V")])] ∧
    "!EP1" ∈ ({"!EP1", "HL2"} : Finset String) := by
  decide

/-- C2 amended: (a) a key name absent from the fragment is never
deleted — its entry survives with every alternative re-keyed by
toggle(t, negated engine tag); alternatives whose re-keyed tag sets
coincide are merged with the later value winning, and each re-keyed tag
set occurs among the resulting keys.  (b) A later import whose fragment
entry for the key has a non-empty tag set and a value equal to a stored
alternative moves that alternative to toggle(oldTag, engineTag), which
removes the literal negation of the engine tag and, absent a
required-positive guard, restores the positive engine tag.  An untagged
re-import (empty tag set) does not restore (see the counterexample). -/
theorem c2_amended {V : Type} [DecidableEq V]
    (engine : String) (cur newm : List (String × TagMap V)) (name : String)
    (m : TagMap V)
    (ha : dlookup cur name = some m) (hb : name ∉ dkeys newm)
    (m2 : TagMap V) (kOld : Finset String) (w v : V) (tNew : Finset String)
    (hfind : findByValue m2 v = some (kOld, w)) (ht : ¬ tNew = ∅)
    (hup : pyUpper engine = engine) (hpos : isNegPrefixed engine = false)
    (hguard : ("+" ++ engine) ∉ kOld) :
    dlookup (mergeCat engine cur newm) name
      = some (retagMap (fun t => add_tag t ("!" ++ engine)) m) ∧
    (∀ p ∈ m, add_tag p.1 ("!" ++ engine)
      ∈ dkeys (retagMap (fun t => add_tag t ("!" ++ engine)) m)) ∧
    mergeTagMap engine m2 [(tNew, v)]
      = dassign (ddel m2 kOld) (add_tag kOld engine) v ∧
    ("!" ++ engine) ∉ add_tag kOld engine ∧
    engine ∈ add_tag kOld engine := by
  refine ⟨?_, retagMap_keys _ m, ?_, ?_, ?_⟩
  · rw [mergeCat, dlookup_mergeCatAbsent_not_new _ _ _ _ hb,
      dlookup_mergeCatNew_not_new _ _ _ _ hb, ha, Option.map_some']
  · simp [mergeTagMap, mergeStep, hfind, ht]
  · exact neg_engine_not_mem_add_tag_pos _ _ hpos hup
  · exact engine_mem_add_tag_pos _ _ hpos hup hguard

/-- Witness for C2 amended at a concrete narrowed entity. -/
theorem c2_amended_witness :
    (dlookup ([("k", [({"HL2"}, "V")])] : List (String × TagMap String)) "k"
        = some [({"HL2"}, "V")] ∧
     "k" ∉ dkeys ([] : List (String × TagMap String)) ∧
     findByValue ([({"!EP1"}, "V")] : TagMap String) "V" = some ({"!EP1"}, "V") ∧
     ¬ ({"FOO"} : Finset String) = ∅ ∧
     pyUpper "EP1" = "EP1" ∧ isNegPrefixed "EP1" = false ∧
     ("+" ++ "EP1") ∉ ({"!EP1"} : Finset String)) ∧
    (dlookup (mergeCat "EP1" [("k", [({"HL2"}, "V")])] []) "k"
      = some (retagMap (fun t => add_tag t ("!" ++ "EP1")) [({"HL2"}, "V")]) ∧
    (∀ p ∈ [(({"HL2"} : Finset String), "V")], add_tag p.1 ("!" ++ "EP1")
      ∈ dkeys (retagMap (fun t => add_tag t ("!" ++ "EP1")) [({"HL2"}, "V")])) ∧
    mergeTagMap "EP1" ([({"!EP1"}, "V")] : TagMap String) [({"FOO"}, "V")]
      = dassign (ddel ([({"!EP1"}, "V")] : TagMap String) {"!EP1"})
          (add_tag {"!EP1"} "EP1") "V" ∧
    ("!" ++ "EP1") ∉ add_tag {"!EP1"} "EP1" ∧
    "EP1" ∈ add_tag {"!EP1"} "EP1") :=
  ⟨⟨by decide, by decide, by decide, by decide, by decide, by decide, by decide⟩,
    c2_amended "EP1" [("k", [({"HL2"}, "V")])] [] "k" [({"HL2"}, "V")]
      (by decide) (by decide) [({"!EP1"}, "V")] {"!EP1"} "V" "V" {"FOO"}
      (by decide) (by decide) (by decide) (by decide) (by decide)⟩

/-- C4 counterexample: with the fragment file for foo present but not
containing foo, importing the classnames foo and baz raises the fatal
error and stops: baz is never processed (its file is absent from the
unchanged result), contradicting the claim that the import continues
with the remaining classnames. -/
theorem c4_counterexample :
    action_import "EP1" dbC4 [entPointNamed "foo", entPointNamed "baz"]
      = (dbC4, some "Classname not present in FGD!") ∧
    dlookup dbC4 (ent_path (entPointNamed "baz")) = none := by
  decide

/-- C4 amended: when the fragment file at the imported classname's
canonical path exists without that classname, the import raises the
fatal `ValueError` for that classname, and the uncaught exception aborts
the entire invocation: no remaining classname is processed, and files
written for earlier classnames persist. -/
theorem c4_amended {V : Type} [DecidableEq V] (engine : String)
    (db : FileSys V) (ent : EntityDef V) (rest : List (EntityDef V))
    (oldFgd : FgdFile V)
    (hold : dlookup db (ent_path ent) = some oldFgd)
    (hmiss : dlookup oldFgd ent.classname = none) :
    action_import engine db (ent :: rest)
      = (db, some "Classname not present in FGD!") := by
  simp [action_import, importStep, hold, hmiss]

/-- Witness for C4 amended, at the concrete broken database. -/
theorem c4_amended_witness :
    (dlookup dbC4 (ent_path (entPointNamed "foo"))
        = some [("bar", entPointNamed "bar")] ∧
     dlookup [("bar", entPointNamed "bar")] (entPointNamed "foo").classname
        = none) ∧
    action_import "EP1" dbC4 [entPointNamed "foo", entPointNamed "baz"]
      = (dbC4, some "Classname not present in FGD!") :=
  ⟨⟨by decide, by decide⟩,
    c4_amended "EP1" dbC4 (entPointNamed "foo") [entPointNamed "baz"]
      [("bar", entPointNamed "bar")] (by decide) (by decide)⟩

theorem exceptMapM_error_of_mem {A B : Type} (f : A → Except String B)
    (l : List A) (x : A) (hx : x ∈ l) (e : String) (hf : f x = Except.error e) :
    ∃ msg, exceptMapM f l = Except.error msg := by
  induction l with
  | nil => simp at hx
  | cons a rest ih =>
    rcases hfa : f a with ea | b
    · exact ⟨ea, by simp [exceptMapM, hfa]⟩
    · rcases List.mem_cons.mp hx with h | h
      · subst h
        rw [hfa] at hf
        exact absurd hf (by simp)
      · rcases ih h with ⟨m, hm⟩
        exact ⟨m, by simp [exceptMapM, hfa, hm, Except.map]⟩

theorem engineProcessEnt_error_of_kv (ent : EntityDef EngVal)
    (k : String) (tm : TagMap EngVal) (hmem : (k, tm) ∈ ent.keyvalues)
    (e : String) (hres : resolveKey ent.classname k tm = Except.error e) :
    ∃ msg, engineProcessEnt ent = Except.error msg := by
  have hkv : ∃ m, engineProcessCat ent.classname ent.keyvalues
      = Except.error m := by
    apply exceptMapM_error_of_mem _ _ (k, tm) hmem e
    simp [hres, Except.map]
  rcases hkv with ⟨m, hm⟩
  rcases hinp : engineProcessCat ent.classname ent.inputs with e1 | inp
  · exact ⟨e1, by simp [engineProcessEnt, hinp, Bind.bind, Except.bind]⟩
  · rcases hout : engineProcessCat ent.classname ent.outputs with e2 | outp
    · exact ⟨e2, by simp [engineProcessEnt, hinp, hout, Bind.bind, Except.bind]⟩
    · exact ⟨m, by simp [engineProcessEnt, hinp, hout, hm, Bind.bind, Except.bind]⟩

/-- C5: in engine-mode export, a key with more than one alternative and
an alternative keyed exactly by the singleton ENGINE tag set resolves to
that alternative (with its description blanked); if that alternative's
value kind is the choice enumeration, the per-key resolution raises the
fatal error and the whole merge phase of the invocation aborts. -/
theorem c5_engine_tag_rule (cn k : String) (tm : TagMap EngVal) (v : EngVal)
    (hlen : 1 < tm.length) (heng : dlookup tm tags_engine = some v) :
    (v.type = ValueTypes.CHOICES →
      resolveKey cn k tm
        = Except.error (cn ++ "." ++ k ++ ": Engine tags cannot be CHOICES!")) ∧
    (¬ v.type = ValueTypes.CHOICES →
      resolveKey cn k tm = Except.ok ([], { v with desc := "" })) ∧
    (∀ (ents : List (EntityDef EngVal)) (ent : EntityDef EngVal),
      ent ∈ ents → ent.classname = cn → (k, tm) ∈ ent.keyvalues →
      v.type = ValueTypes.CHOICES →
      ∃ msg, engineMergePhase ents = Except.error msg) := by
  match tm, hlen with
  | p :: q :: rest, _ =>
    refine ⟨?_, ?_, ?_⟩
    · intro hch
      simp [resolveKey, heng, hch]
    · intro hch
      simp [resolveKey, heng, hch, resolveTail]
    · intro ents ent hent hcn hmem hch
      have herr : resolveKey ent.classname k (p :: q :: rest)
          = Except.error (cn ++ "." ++ k ++ ": Engine tags cannot be CHOICES!") := by
        rw [hcn]
        simp [resolveKey, heng, hch]
      rcases engineProcessEnt_error_of_kv ent k (p :: q :: rest) hmem _ herr
        with ⟨m, hm⟩
      exact exceptMapM_error_of_mem _ _ ent hent m hm

/-- Witness for C5 at a concrete two-alternative map whose ENGINE entry
is a CHOICES value. -/
theorem c5_engine_tag_rule_witness :
    (1 < tmC5.length ∧ dlookup tmC5 tags_engine = some engValChoices ∧
     engValChoices.type = ValueTypes.CHOICES ∧ entC5 ∈ [entC5] ∧
     entC5.classname = "ent" ∧ ("key", tmC5) ∈ entC5.keyvalues) ∧
    resolveKey "ent" "key" tmC5
      = Except.error ("ent" ++ "." ++ "key" ++ ": Engine tags cannot be CHOICES!") ∧
    (∃ msg, engineMergePhase [entC5] = Except.error msg) :=
  ⟨⟨by decide, by decide, by decide, by decide, by decide, by decide⟩,
   (c5_engine_tag_rule "ent" "key" tmC5 engValChoices (by decide) (by decide)).1
     (by decide),
   (c5_engine_tag_rule "ent" "key" tmC5 engValChoices (by decide) (by decide)).2.2
     [entC5] entC5 (by decide) (by decide) (by decide) (by decide)⟩

/-- C10 counterexample: a comp_adv_output with control enabled, a
resolvable target and a negative summed delay, whose parameter format
string fails to format ('\x7b0\x7d' makes SimpleFormatter raise): the
warning is logged and the delay clamped, but the entity is then skipped
and no output is added, even though the search matched an entity. -/
theorem c10_counterexample :
    advancedOutputOne (fun _ => [(0 : Nat)]) modelVFormat advC10
      = ([warnNegDelay, warnFormatFailed], none) ∧
    advC10.delay + advC10.delay2 < 0 ∧
    pyOr advC10.target_local advC10.target_global ≠ "" ∧
    (fun (_ : String) => [(0 : Nat)]) advC10.out_ent ≠ [] := by
  have hneg : advC10.delay + advC10.delay2 < 0 := by norm_num [advC10]
  have hfmt : paramResult modelVFormat advC10 = none := by decide
  have hen : advC10.ctrl_enabled = true := by decide
  have ht : ¬ pyOr advC10.target_local advC10.target_global = "" := by decide
  refine ⟨?_, hneg, ht, by decide⟩
  simp [advancedOutputOne, hen, ht, hneg, hfmt]

/-- C10 amended: for every comp_adv_output with control enabled, a
resolvable target, and delay plus delay2 summing negative, the transform
logs the negative-delay warning and clamps the delay to exactly 0; the
configured output is added to every matched entity provided the
parameter format step succeeds (in particular always when params_fmt is
empty), while a formatting failure skips the entity after the warning. -/
theorem c10_amended {E : Type} (search : String → List E)
    (vfmt : String → List String → Option String) (e : AdvOut)
    (hen : e.ctrl_enabled = true)
    (htarget : ¬ pyOr e.target_local e.target_global = "")
    (hneg : e.delay + e.delay2 < 0) :
    warnNegDelay ∈ (advancedOutputOne search vfmt e).1 ∧
    (∀ p, paramResult vfmt e = some p →
      (advancedOutputOne search vfmt e).2
        = some (search e.out_ent,
            { output := e.out_name
              target :=
                if e.target_instname ≠ "" then
                  pyOr e.target_local e.target_global ++ "-" ++ e.target_instname
                else pyOr e.target_local e.target_global
              input := e.inp_name, param := p, delay := 0,
              times := e.times })) ∧
    (paramResult vfmt e = none → (advancedOutputOne search vfmt e).2 = none) := by
  refine ⟨?_, ?_, ?_⟩
  · rcases hp : paramResult vfmt e with _ | p
    · simp [advancedOutputOne, hen, htarget, hneg, hp]
    · simp [advancedOutputOne, hen, htarget, hneg, hp]
  · intro p hp
    simp [advancedOutputOne, hen, htarget, hneg, hp]
  · intro hp
    simp [advancedOutputOne, hen, htarget, hneg, hp]

/-- Witness for C10 amended, at the concrete entity with empty format
string (formatting trivially succeeds). -/
theorem c10_amended_witness :
    (advC10ok.ctrl_enabled = true ∧
     ¬ pyOr advC10ok.target_local advC10ok.target_global = "" ∧
     advC10ok.delay + advC10ok.delay2 < 0 ∧
     paramResult modelVFormat advC10ok = some "") ∧
    warnNegDelay ∈ (advancedOutputOne (fun _ => [(0 : Nat)]) modelVFormat advC10ok).1 ∧
    (advancedOutputOne (fun _ => [(0 : Nat)]) modelVFormat advC10ok).2
      = some ((fun _ => [(0 : Nat)]) advC10ok.out_ent,
          { output := advC10ok.out_name
            target :=
              if advC10ok.target_instname ≠ "" then
                pyOr advC10ok.target_local advC10ok.target_global ++ "-" ++
                  advC10ok.target_instname
              else pyOr advC10ok.target_local advC10ok.target_global
            input := advC10ok.inp_name, param := "", delay := 0,
            times := advC10ok.times }) :=
  ⟨⟨by decide, by decide, by norm_num [advC10ok, advC10], by decide⟩,
   (c10_amended (fun _ => [(0 : Nat)]) modelVFormat advC10ok (by decide)
      (by decide) (by norm_num [advC10ok, advC10])).1,
   (c10_amended (fun _ => [(0 : Nat)]) modelVFormat advC10ok (by decide)
      (by decide) (by norm_num [advC10ok, advC10])).2.1 "" (by decide)⟩

theorem collapseOne_fst {V : Type} [DecidableEq V]
    (db : List (String × EntityDef V)) (p : String × EntityDef V) :
    (collapseOne db p).1 = p.1 := rfl

theorem collapseOne_helpers {V : Type} [DecidableEq V]
    (db : List (String × EntityDef V)) (p : String × EntityDef V) :
    (collapseOne db p).2.helpers = p.2.helpers := rfl

theorem collapseOne_type {V : Type} [DecidableEq V]
    (db : List (String × EntityDef V)) (p : String × EntityDef V) :
    (collapseOne db p).2.type = p.2.type := rfl

theorem strip_tags_helpers {V : Type}
    (matchTags : Finset String → Finset String → Bool)
    (tags : Finset String) (e : EntityDef V) :
    (strip_tags matchTags tags e).helpers = e.helpers := rfl

theorem taggedKeepOne_eq_some {V : Type} [DecidableEq V]
    (matchTags : Finset String → Finset String → Bool)
    (tags : Finset String) (q p : String × EntityDef V)
    (h : taggedKeepOne matchTags tags q = some p) :
    matchTags tags (appliesArgsSorted q.2.helpers).toFinset = true ∧
    p.1 = q.1 ∧ p.2.helpers = nonApplies q.2.helpers ∧ p.2.type = q.2.type := by
  by_cases hc : matchTags tags (appliesArgsSorted q.2.helpers).toFinset = true
  · rw [taggedKeepOne, if_pos hc] at h
    injection h with h2
    subst h2
    exact ⟨hc, rfl, rfl, rfl⟩
  · rw [taggedKeepOne, if_neg hc] at h
    simp at h

/-- C6: every entity present in a tagged-mode export was selected by the
requested (expanded) tag set applied to its normalized applies-to
argument list; no exported entity carries an applies-to helper; and no
BASE-kind entity is exported. -/
theorem c6_tagged_export_postcondition {V : Type} [DecidableEq V]
    (matchTags : Finset String → Finset String → Bool)
    (tags : Finset String) (db : List (String × EntityDef V))
    (c : String) (e : EntityDef V)
    (hmem : (c, e) ∈ taggedExportDb matchTags tags db) :
    (∃ e0, (c, e0) ∈ db ∧
      matchTags (expand_tags tags) (appliesArgsSorted e0.helpers).toFinset = true) ∧
    (∀ h ∈ e.helpers, ¬ h.1 = HelperTypes.EXT_APPLIES_TO) ∧
    ¬ e.type = EntityTypes.BASE := by
  rw [taggedExportDb] at hmem
  have hfil := List.mem_filter.mp hmem
  have hbase : ¬ e.type = EntityTypes.BASE := by simpa using hfil.2
  rcases List.mem_map.mp hfil.1 with ⟨p, hp, hpe⟩
  rcases List.mem_filterMap.mp hp with ⟨q, hq, hfq⟩
  rcases taggedKeepOne_eq_some _ _ _ _ hfq with ⟨hcond, hp1, hph, hpt⟩
  have hc1 : p.1 = c := by
    rw [← collapseOne_fst (db.filterMap (taggedKeepOne matchTags (expand_tags tags))) p, hpe]
  have heh : e.helpers = p.2.helpers := by
    rw [← collapseOne_helpers (db.filterMap (taggedKeepOne matchTags (expand_tags tags))) p, hpe]
  refine ⟨⟨q.2, ?_, hcond⟩, ?_, hbase⟩
  · have : (c, q.2) = q := by
      rw [← hc1, hp1]
    rw [this]
    exact hq
  · intro h hh
    rw [heh, hph] at hh
    have := List.mem_filter.mp hh
    simpa using this.2

/-- Witness for C6 at a one-entity database and the always-true
matcher. -/
theorem c6_tagged_export_postcondition_witness :
    (("x", entPointNamed "x")
        ∈ taggedExportDb (fun _ _ => true) ∅ [("x", entPointNamed "x")]) ∧
    ((∃ e0, ("x", e0) ∈ [("x", entPointNamed "x")] ∧
      (fun (_ : Finset String) (_ : Finset String) => true) (expand_tags ∅)
        (appliesArgsSorted e0.helpers).toFinset = true) ∧
    (∀ h ∈ (entPointNamed "x").helpers, ¬ h.1 = HelperTypes.EXT_APPLIES_TO) ∧
    ¬ (entPointNamed "x").type = EntityTypes.BASE) :=
  ⟨by decide,
   c6_tagged_export_postcondition (fun _ _ => true) ∅ [("x", entPointNamed "x")]
     "x" (entPointNamed "x") (by decide)⟩

theorem dlookup_of_mem_nodup {K V : Type} [DecidableEq K]
    (m : List (K × V)) (k : K) (v : V) (hmem : (k, v) ∈ m)
    (hnd : (dkeys m).Nodup) : dlookup m k = some v := by
  induction m with
  | nil => simp at hmem
  | cons p rest ih =>
    obtain ⟨k0, v0⟩ := p
    simp only [dkeys, List.map_cons, List.nodup_cons] at hnd
    rcases List.mem_cons.mp hmem with h | h
    · injection h with h1 h2
      subst h1; subst h2
      simp [dlookup]
    · have hk : ¬ k0 = k := by
        intro he
        subst he
        exact hnd.1 (List.mem_map.mpr ⟨(k0, v), h, rfl⟩)
      simp only [dlookup, if_neg hk]
      exact ih h (by simpa [dkeys] using hnd.2)

theorem dkeys_cons {K V : Type} (p : K × V) (l : List (K × V)) :
    dkeys (p :: l) = p.1 :: dkeys l := rfl

theorem dkeys_append {K V : Type} (l1 l2 : List (K × V)) :
    dkeys (l1 ++ l2) = dkeys l1 ++ dkeys l2 := List.map_append _ _ _

theorem dkeys_dassign {K V : Type} [DecidableEq K]
    (m : List (K × V)) (k : K) (v : V) :
    dkeys (dassign m k v) = if k ∈ dkeys m then dkeys m else dkeys m ++ [k] := by
  induction m with
  | nil => simp [dassign, dkeys]
  | cons p rest ih =>
    obtain ⟨k0, v0⟩ := p
    by_cases hp : k0 = k
    · subst hp
      simp [dassign, dkeys]
    · have hk : ¬ k = k0 := fun h => hp h.symm
      simp only [dassign, if_neg hp, dkeys_cons]
      rw [ih]
      by_cases hmem : k ∈ dkeys rest
      · rw [if_pos hmem, if_pos (by exact List.mem_cons_of_mem _ hmem)]
      · rw [if_neg hmem,
          if_neg (by simp only [List.mem_cons]; rintro (h | h); exact hk h; exact hmem h)]
        rfl

theorem dassign_nodup_keys {K V : Type} [DecidableEq K]
    (m : List (K × V)) (k : K) (v : V) (h : (dkeys m).Nodup) :
    (dkeys (dassign m k v)).Nodup := by
  rw [dkeys_dassign]
  by_cases hmem : k ∈ dkeys m
  · simpa [hmem] using h
  · simp only [hmem, if_false]
    simpa [List.nodup_append, hmem] using h

theorem dassign_append_of_not_mem {K V : Type} [DecidableEq K]
    (m : List (K × V)) (k : K) (v : V) (h : k ∉ dkeys m) :
    dassign m k v = m ++ [(k, v)] := by
  induction m with
  | nil => simp [dassign]
  | cons p rest ih =>
    simp only [dkeys, List.map_cons, List.mem_cons] at h
    push_neg at h
    have hp : ¬ p.1 = k := fun he => h.1 he.symm
    simp only [dassign, if_neg hp, List.cons_append, List.cons.injEq, true_and]
    exact ih (by simpa [dkeys] using h.2)

theorem retag_fold_nodup {V : Type} (f : Finset String → Finset String) :
    ∀ (m acc : TagMap V), (dkeys acc).Nodup →
      (dkeys (List.foldl (fun a p => dassign a (f p.1) p.2) acc m)).Nodup := by
  intro m
  induction m with
  | nil => intro acc h; simpa using h
  | cons q rest ih =>
    intro acc h
    simpa [List.foldl] using ih (dassign acc (f q.1) q.2) (dassign_nodup_keys _ _ _ h)

theorem retagMap_nodup_keys {V : Type} (f : Finset String → Finset String)
    (m : TagMap V) : (dkeys (retagMap f m)).Nodup :=
  retag_fold_nodup f m [] (by simp [dkeys])

theorem retag_fold_keys_image {V : Type} (f : Finset String → Finset String) :
    ∀ (m acc : TagMap V),
      (∀ k ∈ dkeys acc, ∃ t, k = f t) →
      ∀ k ∈ dkeys (List.foldl (fun a p => dassign a (f p.1) p.2) acc m),
        ∃ t, k = f t := by
  intro m
  induction m with
  | nil => intro acc h; simpa using h
  | cons q rest ih =>
    intro acc h
    apply ih (dassign acc (f q.1) q.2)
    intro k hk
    rw [dkeys_dassign] at hk
    by_cases hmem : f q.1 ∈ dkeys acc
    · exact h k (by simpa [hmem] using hk)
    · simp only [hmem, if_false, List.mem_append, List.mem_singleton] at hk
      rcases hk with hk | hk
      · exact h k hk
      · exact ⟨q.1, hk⟩

theorem retagMap_keys_image {V : Type} (f : Finset String → Finset String)
    (m : TagMap V) : ∀ k ∈ dkeys (retagMap f m), ∃ t, k = f t :=
  retag_fold_keys_image f m [] (by simp [dkeys])

theorem retag_fold_fixed {V : Type} (f : Finset String → Finset String) :
    ∀ (l acc : TagMap V), (dkeys l).Nodup → (∀ p ∈ l, f p.1 = p.1) →
      (∀ k ∈ dkeys l, k ∉ dkeys acc) →
      List.foldl (fun a p => dassign a (f p.1) p.2) acc l = acc ++ l := by
  intro l
  induction l with
  | nil => intro acc _ _ _; simp
  | cons q rest ih =>
    intro acc hnd hfix hdisj
    rw [dkeys_cons] at hnd
    have hnd2 := List.nodup_cons.mp hnd
    have hq : f q.1 = q.1 := hfix q (List.mem_cons_self _ _)
    have hqa : q.1 ∉ dkeys acc :=
      hdisj q.1 (by rw [dkeys_cons]; exact List.mem_cons_self _ _)
    have hstep : dassign acc (f q.1) q.2 = acc ++ [q] := by
      rw [hq]
      have := dassign_append_of_not_mem acc q.1 q.2 hqa
      simpa using this
    have hdisj2 : ∀ k ∈ dkeys rest, k ∉ dkeys (acc ++ [q]) := by
      intro k hk
      have hkq : ¬ k = q.1 := by
        intro he
        exact hnd2.1 (he ▸ hk)
      have hka : k ∉ dkeys acc :=
        hdisj k (by rw [dkeys_cons]; exact List.mem_cons_of_mem _ hk)
      rw [dkeys_append]
      intro hmem
      rcases List.mem_append.mp hmem with h | h
      · exact hka h
      · rw [show dkeys [q] = [q.1] from rfl] at h
        exact hkq (List.mem_singleton.mp h)
    rw [List.foldl_cons, hstep,
      ih (acc ++ [q]) hnd2.2 (fun p hp => hfix p (List.mem_cons_of_mem _ hp)) hdisj2]
    simp

theorem retagMap_fixed {V : Type} (f : Finset String → Finset String)
    (l : TagMap V) (hnd : (dkeys l).Nodup) (hfix : ∀ p ∈ l, f p.1 = p.1) :
    retagMap f l = l := by
  rw [retagMap, retag_fold_fixed f l [] hnd hfix (by simp [dkeys])]
  simp

theorem add_tag_neg_idem (E : String) (t : Finset String) :
    add_tag (add_tag t ("!" ++ E)) ("!" ++ E) = add_tag t ("!" ++ E) := by
  rw [add_tag_neg, add_tag_neg]
  have hne : E ∉ insert ("!" ++ E) (t.erase E) := by
    intro h
    rcases Finset.mem_insert.mp h with h | h
    · exact str_cons_ne '!' "!" E rfl h
    · exact (Finset.mem_erase.mp h).1 rfl
  rw [Finset.erase_eq_self.mpr hne]
  exact Finset.insert_eq_self.mpr (Finset.mem_insert_self _ _)

theorem retagNeg_idem {V : Type} (E : String) (m : TagMap V) :
    retagMap (fun t => add_tag t ("!" ++ E))
      (retagMap (fun t => add_tag t ("!" ++ E)) m)
      = retagMap (fun t => add_tag t ("!" ++ E)) m := by
  apply retagMap_fixed
  · exact retagMap_nodup_keys _ _
  · intro p hp
    rcases retagMap_keys_image (fun t => add_tag t ("!" ++ E)) m p.1
        (List.mem_map.mpr ⟨p, hp, rfl⟩) with ⟨t, ht⟩
    rw [ht]
    exact add_tag_neg_idem E t

theorem foldAppendNew_structure {α : Type} [DecidableEq α] :
    ∀ (l acc : List α), ∃ ex, foldAppendNew acc l = acc ++ ex ∧
      ∀ x ∈ ex, x ∈ l ∧ x ∉ acc := by
  intro l
  induction l with
  | nil => exact fun acc => ⟨[], by simp [foldAppendNew]⟩
  | cons a rest ih =>
    intro acc
    by_cases ha : a ∈ acc
    · rcases ih acc with ⟨ex, hex, hmem⟩
      refine ⟨ex, ?_, ?_⟩
      · rw [foldAppendNew, List.foldl_cons, if_pos ha]
        exact hex
      · exact fun x hx => ⟨List.mem_cons_of_mem _ (hmem x hx).1, (hmem x hx).2⟩
    · rcases ih (acc ++ [a]) with ⟨ex, hex, hmem⟩
      refine ⟨a :: ex, ?_, ?_⟩
      · rw [foldAppendNew, List.foldl_cons, if_neg ha]
        rw [foldAppendNew] at hex
        rw [hex]
        simp
      · intro x hx
        rcases List.mem_cons.mp hx with h | h
        · subst h
          exact ⟨List.mem_cons_self _ _, ha⟩
        · rcases hmem x h with ⟨h1, h2⟩
          refine ⟨List.mem_cons_of_mem _ h1, fun hxa => h2 ?_⟩
          exact List.mem_append.mpr (Or.inl hxa)

theorem foldAppendNew_mem_acc {α : Type} [DecidableEq α]
    (l acc : List α) (x : α) (hx : x ∈ acc) : x ∈ foldAppendNew acc l := by
  rcases foldAppendNew_structure l acc with ⟨ex, hex, _⟩
  rw [hex]
  exact List.mem_append.mpr (Or.inl hx)

theorem foldAppendNew_mem_new {α : Type} [DecidableEq α] :
    ∀ (l acc : List α) (x : α), x ∈ l → x ∈ foldAppendNew acc l := by
  intro l
  induction l with
  | nil => intro acc x hx; simp at hx
  | cons a rest ih =>
    intro acc x hx
    rw [foldAppendNew, List.foldl_cons]
    by_cases ha : a ∈ acc
    · rw [if_pos ha, ← foldAppendNew]
      rcases List.mem_cons.mp hx with h | h
      · subst h
        exact foldAppendNew_mem_acc _ _ _ ha
      · exact ih acc x h
    · rw [if_neg ha, ← foldAppendNew]
      rcases List.mem_cons.mp hx with h | h
      · subst h
        exact foldAppendNew_mem_acc _ _ _ (by simp)
      · exact ih _ x h

theorem foldAppendNew_eq_self {α : Type} [DecidableEq α]
    (l acc : List α) (h : ∀ x ∈ l, x ∈ acc) : foldAppendNew acc l = acc := by
  induction l with
  | nil => rfl
  | cons a rest ih =>
    rw [foldAppendNew, List.foldl_cons, if_pos (h a (List.mem_cons_self _ _)),
      ← foldAppendNew]
    exact ih (fun x hx => h x (List.mem_cons_of_mem _ hx))

theorem mergeTagMap_nil {V : Type} [DecidableEq V] (engine : String)
    (orig : TagMap V) : mergeTagMap engine orig [] = orig := rfl

theorem mergeTagMap_singleton_id {V : Type} [DecidableEq V] (engine : String)
    (orig : TagMap V) (v : V) (h : ∃ q ∈ orig, q.2 = v) :
    mergeTagMap engine orig [(∅, v)] = orig := by
  rcases h with ⟨q, hq, hv⟩
  rcases findByValue_isSome_of_mem orig v q hq hv with ⟨r, hr⟩
  rw [mergeTagMap, List.foldl_cons, List.foldl_nil, mergeStep]
  obtain ⟨rk, rv⟩ := r
  rw [hr]
  simp

theorem mergeTagMap_singleton_value {V : Type} [DecidableEq V] (engine : String)
    (orig : TagMap V) (t : Finset String) (v : V) :
    ∃ q ∈ mergeTagMap engine orig [(t, v)], q.2 = v := by
  rw [mergeTagMap, List.foldl_cons, List.foldl_nil]
  rcases hf : findByValue orig v with _ | r
  · simp only [mergeStep, hf]
    exact dassign_value_mem _ _ _
  · obtain ⟨rk, rv⟩ := r
    by_cases ht : t = ∅
    · simp only [mergeStep, hf, ht, if_true]
      rcases findByValue_eq_some orig v (rk, rv) hf with ⟨hmem, hval⟩
      exact ⟨(rk, rv), hmem, hval⟩
    · simp only [mergeStep, hf, if_neg ht]
      exact dassign_value_mem _ _ _

theorem dlookup_mergeCatAbsent_mem {V : Type} (engine : String)
    (newNames : List String) (cur : List (String × TagMap V)) (name : String)
    (hname : name ∈ newNames) :
    dlookup (mergeCatAbsent engine newNames cur) name = dlookup cur name := by
  induction cur with
  | nil => rfl
  | cons p rest ih =>
    obtain ⟨k0, m0⟩ := p
    simp only [mergeCatAbsent, List.map_cons] at ih ⊢
    by_cases hmem : k0 ∈ newNames
    · rw [if_pos hmem]
      by_cases hp : k0 = name
      · simp [dlookup, hp]
      · simp only [dlookup, if_neg hp]
        exact ih
    · rw [if_neg hmem]
      by_cases hp : k0 = name
      · exact absurd (hp ▸ hname) hmem
      · simp only [dlookup, if_neg hp]
        exact ih

theorem mergeCatAbsent_entry {V : Type} (engine : String)
    (newNames : List String) (cur : List (String × TagMap V))
    (n : String) (m : TagMap V)
    (hmem : (n, m) ∈ mergeCatAbsent engine newNames cur) (hn : n ∉ newNames) :
    ∃ m0, (n, m0) ∈ cur ∧
      m = retagMap (fun t => add_tag t ("!" ++ engine)) m0 := by
  rcases List.mem_map.mp hmem with ⟨p, hp, hpe⟩
  obtain ⟨k0, m0⟩ := p
  by_cases hk : k0 ∈ newNames
  · rw [if_pos hk] at hpe
    injection hpe with h1 h2
    subst h1
    exact absurd hk hn
  · rw [if_neg hk] at hpe
    injection hpe with h1 h2
    subst h1
    exact ⟨m0, hp, h2.symm⟩

theorem mergeCatNew_cons {V : Type} [DecidableEq V] (engine : String)
    (cur : List (String × TagMap V)) (q : String × TagMap V)
    (rest : List (String × TagMap V)) :
    mergeCatNew engine cur (q :: rest)
      = mergeCatNew engine
          (match dlookup cur q.1 with
            | none => dassign cur q.1 (retagMap (fun t => add_tag t engine) q.2)
            | some orig => dassign cur q.1 (mergeTagMap engine orig q.2))
          rest := rfl

theorem dlookup_mergeCatNew_mem {V : Type} [DecidableEq V] (engine : String)
    (newm : List (String × TagMap V)) :
    ∀ (cur : List (String × TagMap V)) (name : String) (tm : TagMap V),
      (name, tm) ∈ newm → (dkeys newm).Nodup →
      dlookup (mergeCatNew engine cur newm) name
        = some (match dlookup cur name with
            | none => retagMap (fun t => add_tag t engine) tm
            | some orig => mergeTagMap engine orig tm) := by
  induction newm with
  | nil => intro cur name tm h _; simp at h
  | cons q rest ih =>
    intro cur name tm hmem hnd
    rw [dkeys_cons] at hnd
    have hnd2 := List.nodup_cons.mp hnd
    rcases List.mem_cons.mp hmem with h | h
    · have hq1 : q.1 = name := by rw [← h]
      have hq2 : q.2 = tm := by rw [← h]
      have hrest : name ∉ dkeys rest := by
        rw [← hq1]
        exact hnd2.1
      rw [mergeCatNew_cons,
        dlookup_mergeCatNew_not_new engine rest _ name hrest, hq1, hq2]
      rcases hcur : dlookup cur name with _ | orig
      · simp [dlookup_dassign_self]
      · simp [dlookup_dassign_self]
    · have hq1 : ¬ q.1 = name := by
        intro he
        exact hnd2.1 (he ▸ List.mem_map.mpr ⟨(name, tm), h, rfl⟩)
      rw [mergeCatNew_cons]
      rcases hcur : dlookup cur q.1 with _ | orig
      · rw [ih _ name tm h hnd2.2,
          dlookup_dassign_ne _ _ _ _ hq1]
      · rw [ih _ name tm h hnd2.2,
          dlookup_dassign_ne _ _ _ _ hq1]

theorem mergeCatNew_id {V : Type} [DecidableEq V] (engine : String)
    (newm : List (String × TagMap V)) :
    ∀ (cur : List (String × TagMap V)),
      (∀ p ∈ newm, ∃ m1, dlookup cur p.1 = some m1 ∧
        mergeTagMap engine m1 p.2 = m1) →
      mergeCatNew engine cur newm = cur := by
  induction newm with
  | nil => intro cur _; rfl
  | cons q rest ih =>
    intro cur h
    rcases h q (List.mem_cons_self _ _) with ⟨m1, hl, hm⟩
    rw [mergeCatNew_cons, hl]
    show mergeCatNew engine (dassign cur q.1 (mergeTagMap engine m1 q.2)) rest = cur
    rw [hm, dassign_of_dlookup_eq _ _ _ hl]
    exact ih cur (fun p hp => h p (List.mem_cons_of_mem _ hp))

theorem mergeCatAbsent_id {V : Type} (engine : String) (names : List String)
    (cur : List (String × TagMap V))
    (h : ∀ p ∈ cur, p.1 ∉ names →
      retagMap (fun t => add_tag t ("!" ++ engine)) p.2 = p.2) :
    mergeCatAbsent engine names cur = cur := by
  induction cur with
  | nil => rfl
  | cons p rest ih =>
    rw [mergeCatAbsent, List.map_cons]
    have hrest : mergeCatAbsent engine names rest = rest :=
      ih (fun q hq hnq => h q (List.mem_cons_of_mem _ hq) hnq)
    rw [mergeCatAbsent] at hrest
    rw [hrest]
    by_cases hmem : p.1 ∈ names
    · rw [if_pos hmem]
    · rw [if_neg hmem, h p (List.mem_cons_self _ _) hmem]

theorem mergeCat_id {V : Type} [DecidableEq V] (engine : String)
    (cur newm : List (String × TagMap V))
    (h1 : ∀ p ∈ newm, ∃ m1, dlookup cur p.1 = some m1 ∧
      mergeTagMap engine m1 p.2 = m1)
    (h2 : ∀ p ∈ cur, p.1 ∉ dkeys newm →
      retagMap (fun t => add_tag t ("!" ++ engine)) p.2 = p.2) :
    mergeCat engine cur newm = cur := by
  rw [mergeCat, mergeCatNew_id _ _ _ h1, mergeCatAbsent_id _ _ _ h2]

theorem untaggedMap_shape {V : Type} (tm : TagMap V) (h : untaggedMap tm) :
    tm = [] ∨ ∃ v, tm = [((∅ : Finset String), v)] := by
  rcases tm with _ | ⟨p, rest⟩
  · exact Or.inl rfl
  · right
    obtain ⟨t, v⟩ := p
    have ht : t = ∅ := h.1 (t, v) (List.mem_cons_self _ _)
    subst ht
    rcases rest with _ | ⟨q, rest2⟩
    · exact ⟨v, rfl⟩
    · exfalso
      have hq : q.1 = ∅ := h.1 q (List.mem_cons_of_mem _ (List.mem_cons_self _ _))
      have hnd := h.2
      rw [dkeys_cons, dkeys_cons] at hnd
      have := (List.nodup_cons.mp hnd).1
      exact this (by rw [← hq]; exact List.mem_cons_self _ _)

theorem retagMap_singleton {V : Type} (f : Finset String → Finset String)
    (t : Finset String) (v : V) : retagMap f [(t, v)] = [(f t, v)] := rfl

theorem mergeCat_h1 {V : Type} [DecidableEq V] (engine : String)
    (C newc : List (String × TagMap V)) (hnd : (dkeys newc).Nodup)
    (hunt : ∀ p ∈ newc, untaggedMap p.2) :
    ∀ p ∈ newc, ∃ m1, dlookup (mergeCat engine C newc) p.1 = some m1 ∧
      mergeTagMap engine m1 p.2 = m1 := by
  intro p hp
  obtain ⟨n, tm⟩ := p
  have hn : n ∈ dkeys newc := List.mem_map.mpr ⟨(n, tm), hp, rfl⟩
  rw [mergeCat, dlookup_mergeCatAbsent_mem _ _ _ _ hn,
    dlookup_mergeCatNew_mem engine newc C n tm hp hnd]
  refine ⟨_, rfl, ?_⟩
  rcases untaggedMap_shape tm (hunt _ hp) with h | ⟨v, h⟩
  · subst h
    rfl
  · subst h
    apply mergeTagMap_singleton_id
    rcases hC : dlookup C n with _ | orig
    · exact ⟨(add_tag ∅ engine, v), by rw [retagMap_singleton]; simp, rfl⟩
    · exact mergeTagMap_singleton_value engine orig ∅ v

theorem mergeCat_h2 {V : Type} [DecidableEq V] (engine : String)
    (C newc : List (String × TagMap V)) :
    ∀ p ∈ mergeCat engine C newc, p.1 ∉ dkeys newc →
      retagMap (fun t => add_tag t ("!" ++ engine)) p.2 = p.2 := by
  intro p hp hnp
  obtain ⟨n, m⟩ := p
  rw [mergeCat] at hp
  rcases mergeCatAbsent_entry engine (dkeys newc) _ n m hp hnp with ⟨m0, _, hm⟩
  rw [hm]
  exact retagNeg_idem engine m0

theorem mergeCat_h1_self {V : Type} [DecidableEq V] (engine : String)
    (newc : List (String × TagMap V)) (hnd : (dkeys newc).Nodup)
    (hunt : ∀ p ∈ newc, untaggedMap p.2) :
    ∀ p ∈ newc, ∃ m1, dlookup newc p.1 = some m1 ∧
      mergeTagMap engine m1 p.2 = m1 := by
  intro p hp
  obtain ⟨n, tm⟩ := p
  refine ⟨tm, dlookup_of_mem_nodup _ _ _ hp hnd, ?_⟩
  rcases untaggedMap_shape tm (hunt _ hp) with h | ⟨v, h⟩
  · subst h
    rfl
  · subst h
    exact mergeTagMap_singleton_id _ _ _ ⟨(∅, v), List.mem_cons_self _ _, rfl⟩

theorem mergeCat_second_id {V : Type} [DecidableEq V] (engine : String)
    (oldcat : Option (List (String × TagMap V)))
    (newc : List (String × TagMap V)) (hnd : (dkeys newc).Nodup)
    (hunt : ∀ p ∈ newc, untaggedMap p.2) :
    mergeCat engine
      (match oldcat with
        | some C => mergeCat engine C newc
        | none => newc) newc
      = (match oldcat with
        | some C => mergeCat engine C newc
        | none => newc) := by
  rcases oldcat with _ | C
  · exact mergeCat_id engine newc newc (mergeCat_h1_self engine newc hnd hunt)
      (fun p hp hnp =>
        absurd (List.mem_map.mpr ⟨p, hp, rfl⟩) hnp)
  · exact mergeCat_id engine _ newc (mergeCat_h1 engine C newc hnd hunt)
      (mergeCat_h2 engine C newc)

theorem strInsertSorted_perm (a : String) (l : List String) :
    (strInsertSorted a l).Perm (a :: l) := by
  induction l with
  | nil => rfl
  | cons b bs ih =>
    rw [strInsertSorted]
    by_cases h : strLe a b = true
    · rw [if_pos h]
    · rw [if_neg h]
      exact (List.Perm.cons b ih).trans (List.Perm.swap a b bs)

theorem strSort_perm (l : List String) : (strSort l).Perm l := by
  induction l with
  | nil => rfl
  | cons a rest ih =>
    exact (strInsertSorted_perm a (strSort rest)).trans (List.Perm.cons a ih)

theorem mem_sortedSet (x : String) (l : List String) :
    x ∈ sortedSet l ↔ x ∈ l := by
  rw [sortedSet]
  exact ((strSort_perm l.dedup).mem_iff).trans List.mem_dedup

theorem sortedSet_nodup (l : List String) : (sortedSet l).Nodup :=
  ((strSort_perm l.dedup).nodup_iff).mpr (List.nodup_dedup l)

theorem isSubstr_self (s : String) : isSubstr s s = true := by
  rw [isSubstr, decide_eq_true_eq]

theorem isSubstr_append_right (s x : String) :
    isSubstr s (x ++ s) = true := by
  rw [isSubstr, decide_eq_true_eq, str_append_data]
  exact (List.suffix_append x.data s.data).isInfix

theorem mergeEntity_desc_substr {V : Type} [DecidableEq V] (engine : String)
    (o F : EntityDef V) : isSubstr F.desc (mergeEntity engine o F).desc = true := by
  rw [mergeEntity]
  by_cases h : isSubstr F.desc o.desc = true
  · simp only [h, if_true]
  · simp only [Bool.not_eq_true] at h
    simp only [h, Bool.false_eq_true, if_false]
    exact isSubstr_append_right F.desc (o.desc ++ "|||")

theorem mem_insertAt_iff {α : Type} (l : List α) (n : Nat) (b a : α) :
    a ∈ insertAt l n b ↔ a = b ∨ a ∈ l := by
  rw [insertAt]
  constructor
  · intro h
    rcases List.mem_append.mp h with h | h
    · exact Or.inr (List.mem_of_mem_take h)
    · rcases List.mem_cons.mp h with h | h
      · exact Or.inl h
      · exact Or.inr (List.mem_of_mem_drop h)
  · intro h
    rcases h with h | h
    · exact List.mem_append.mpr (Or.inr (List.mem_cons.mpr (Or.inl h)))
    · rcases List.mem_append.mp ((List.take_append_drop n l).symm ▸ h) with h | h
      · exact List.mem_append.mpr (Or.inl h)
      · exact List.mem_append.mpr (Or.inr (List.mem_cons.mpr (Or.inr h)))

theorem mem_insertAt_of_mem {α : Type} (l : List α) (n : Nat) (b a : α)
    (h : a ∈ l) : a ∈ insertAt l n b :=
  (mem_insertAt_iff l n b a).mpr (Or.inr h)

theorem nonApplies_mem {hs : List Helper} {h : Helper}
    (hh : h ∈ nonApplies hs) : ¬ h.1 = HelperTypes.EXT_APPLIES_TO := by
  have := List.mem_filter.mp hh
  simpa using this.2

theorem mem_nonApplies_of {hs : List Helper} {h : Helper} (hmem : h ∈ hs)
    (hna : ¬ h.1 = HelperTypes.EXT_APPLIES_TO) : h ∈ nonApplies hs :=
  List.mem_filter.mpr ⟨hmem, by simpa using hna⟩

theorem nonApplies_append (l1 l2 : List Helper) :
    nonApplies (l1 ++ l2) = nonApplies l1 ++ nonApplies l2 := by
  simp only [nonApplies, List.filter_append]

theorem nonApplies_of_all_nonapplies (l : List Helper)
    (h : ∀ x ∈ l, ¬ x.1 = HelperTypes.EXT_APPLIES_TO) : nonApplies l = l := by
  rw [nonApplies, List.filter_eq_self]
  intro a ha
  simpa using h a ha

theorem nonApplies_of_all_applies (l : List Helper)
    (h : ∀ x ∈ l, x.1 = HelperTypes.EXT_APPLIES_TO) : nonApplies l = [] := by
  rw [nonApplies, List.filter_eq_nil_iff]
  intro a ha
  simpa using h a ha

theorem nonApplies_cons_applies (args : List String) (z : List Helper) :
    nonApplies ((HelperTypes.EXT_APPLIES_TO, args) :: z) = nonApplies z := by
  rw [nonApplies, nonApplies, List.filter_cons, if_neg (by simp)]

theorem nonApplies_insertAt_applies (l : List Helper) (n : Nat)
    (args : List String) :
    nonApplies (insertAt l n (HelperTypes.EXT_APPLIES_TO, args))
      = nonApplies l := by
  rw [insertAt, nonApplies_append, nonApplies_cons_applies,
    ← nonApplies_append, List.take_append_drop]

theorem firstAppliesIdx_le (hs : List Helper) (i : Nat)
    (h : firstAppliesIdx hs = some i) : i ≤ (nonApplies hs).length := by
  induction hs generalizing i with
  | nil => simp [firstAppliesIdx] at h
  | cons c rest ih =>
    by_cases hc : c.1 = HelperTypes.EXT_APPLIES_TO
    · rw [firstAppliesIdx, if_pos hc] at h
      injection h with h2
      subst h2
      exact Nat.zero_le _
    · rw [firstAppliesIdx, if_neg hc] at h
      rcases hj : firstAppliesIdx rest with _ | j
      · rw [hj] at h
        simp at h
      · rw [hj] at h
        simp only [Option.map_some'] at h
        injection h with h2
        subst h2
        have := ih j hj
        rw [nonApplies, List.filter_cons]
        simp only [decide_not, hc, decide_False, Bool.not_false, if_true]
        simpa [nonApplies] using Nat.succ_le_succ this

theorem firstAppliesIdx_insertAt_append (args : List String)
    (ex : List Helper) :
    ∀ (p : Nat) (l : List Helper),
      (∀ x ∈ l, ¬ x.1 = HelperTypes.EXT_APPLIES_TO) → p ≤ l.length →
      firstAppliesIdx
        (insertAt l p (HelperTypes.EXT_APPLIES_TO, args) ++ ex) = some p := by
  intro p
  induction p with
  | zero =>
    intro l _ _
    rw [show insertAt l 0 (HelperTypes.EXT_APPLIES_TO, args)
        = (HelperTypes.EXT_APPLIES_TO, args) :: l from rfl]
    rw [List.cons_append, firstAppliesIdx, if_pos rfl]
  | succ n ih =>
    intro l hl hp
    rcases l with _ | ⟨c, l2⟩
    · simp at hp
    · rw [show insertAt (c :: l2) (n + 1) (HelperTypes.EXT_APPLIES_TO, args)
          = c :: insertAt l2 n (HelperTypes.EXT_APPLIES_TO, args) from rfl]
      rw [List.cons_append, firstAppliesIdx,
        if_neg (hl c (List.mem_cons_self _ _)),
        ih l2 (fun x hx => hl x (List.mem_cons_of_mem _ hx))
          (Nat.le_of_succ_le_succ hp)]
      rfl

theorem mem_appliesArgsRaw (hs : List Helper) (x : String) :
    x ∈ appliesArgsRaw hs
      ↔ ∃ h ∈ hs, h.1 = HelperTypes.EXT_APPLIES_TO ∧ x ∈ h.2 := by
  induction hs with
  | nil => simp [appliesArgsRaw]
  | cons c rest ih =>
    rw [appliesArgsRaw, List.filter_cons]
    by_cases hc : c.1 = HelperTypes.EXT_APPLIES_TO
    · rw [if_pos (by simpa using hc), List.foldr_cons]
      have hfold : x ∈ c.2 ++ appliesArgsRaw rest
          ↔ x ∈ c.2 ∨ x ∈ appliesArgsRaw rest := List.mem_append
      rw [show List.foldr (fun h acc => h.2 ++ acc) []
            (List.filter (fun h => decide (h.1 = HelperTypes.EXT_APPLIES_TO)) rest)
          = appliesArgsRaw rest from rfl]
      rw [hfold, ih]
      constructor
      · rintro (h | ⟨h2, hmem, ha, hx⟩)
        · exact ⟨c, List.mem_cons_self _ _, hc, h⟩
        · exact ⟨h2, List.mem_cons_of_mem _ hmem, ha, hx⟩
      · rintro ⟨h2, hmem, ha, hx⟩
        rcases List.mem_cons.mp hmem with h | h
        · subst h
          exact Or.inl hx
        · exact Or.inr ⟨h2, h, ha, hx⟩
    · rw [if_neg (by simpa using hc)]
      rw [show List.foldr (fun h acc => h.2 ++ acc) []
            (List.filter (fun h => decide (h.1 = HelperTypes.EXT_APPLIES_TO)) rest)
          = appliesArgsRaw rest from rfl]
      rw [ih]
      constructor
      · rintro ⟨h2, hmem, ha, hx⟩
        exact ⟨h2, List.mem_cons_of_mem _ hmem, ha, hx⟩
      · rintro ⟨h2, hmem, ha, hx⟩
        rcases List.mem_cons.mp hmem with h | h
        · subst h
          exact absurd ha hc
        · exact ⟨h2, h, ha, hx⟩

theorem helpersEquiv_refl (l : List Helper) : helpersEquiv l l := by
  induction l with
  | nil => exact List.Forall₂.nil
  | cons a rest ih => exact List.Forall₂.cons (Or.inl rfl) ih

theorem helpersEquiv_append {l1 l2 l3 l4 : List Helper}
    (h1 : helpersEquiv l1 l2) (h2 : helpersEquiv l3 l4) :
    helpersEquiv (l1 ++ l3) (l2 ++ l4) := by
  induction h1 with
  | nil => exact h2
  | cons hab hrest ih => exact List.Forall₂.cons hab ih

theorem helpersEquiv_insertAt (l : List Helper) (p : Nat)
    (a1 a2 : List String) (hperm : a1.Perm a2) :
    helpersEquiv (insertAt l p (HelperTypes.EXT_APPLIES_TO, a1))
      (insertAt l p (HelperTypes.EXT_APPLIES_TO, a2)) := by
  rw [insertAt, insertAt]
  exact helpersEquiv_append (helpersEquiv_refl _)
    (List.Forall₂.cons (Or.inr ⟨rfl, rfl, hperm⟩) (helpersEquiv_refl _))

theorem appliesNormalized_eq (hs : List Helper) (args : List String) :
    appliesNormalized hs args
      = insertAt (nonApplies hs) ((firstAppliesIdx hs).getD 0)
          (HelperTypes.EXT_APPLIES_TO, args) := rfl

theorem engine_mem_args1 (E : String) (A1 : List String) :
    E ∈ (if E ∈ A1 then A1 else A1 ++ [E]) := by
  by_cases h : E ∈ A1
  · rw [if_pos h]; exact h
  · rw [if_neg h]; simp

theorem args1_nodup (E : String) (A1 : List String) (h : A1.Nodup) :
    (if E ∈ A1 then A1 else A1 ++ [E]).Nodup := by
  by_cases hE : E ∈ A1
  · rw [if_pos hE]; exact h
  · rw [if_neg hE]
    simpa [List.nodup_append, hE] using h

theorem mem_args1_iff (E : String) (A1 : List String) (x : String) :
    x ∈ (if E ∈ A1 then A1 else A1 ++ [E]) ↔ x ∈ A1 ∨ x = E := by
  by_cases hE : E ∈ A1
  · rw [if_pos hE]
    constructor
    · exact fun h => Or.inl h
    · rintro (h | h)
      · exact h
      · exact h ▸ hE
  · rw [if_neg hE]
    simp

/-- The master helper-list lemma for idempotence: re-running the merge
and normalization over an already-normalized helper list yields the same
list up to the re-sorting of the applies-to argument list. -/
theorem helpers_second_equiv (E : String) (H1 Fh : List Helper)
    (hFh : ∀ h ∈ Fh, h ∈ H1) :
    helpersEquiv
      (appliesNormalized
        (foldAppendNew
          (appliesNormalized H1
            (if E ∈ appliesArgsSorted H1 then appliesArgsSorted H1
             else appliesArgsSorted H1 ++ [E])) Fh)
        (if E ∈ appliesArgsSorted
            (foldAppendNew
              (appliesNormalized H1
                (if E ∈ appliesArgsSorted H1 then appliesArgsSorted H1
                 else appliesArgsSorted H1 ++ [E])) Fh)
         then appliesArgsSorted
            (foldAppendNew
              (appliesNormalized H1
                (if E ∈ appliesArgsSorted H1 then appliesArgsSorted H1
                 else appliesArgsSorted H1 ++ [E])) Fh)
         else appliesArgsSorted
            (foldAppendNew
              (appliesNormalized H1
                (if E ∈ appliesArgsSorted H1 then appliesArgsSorted H1
                 else appliesArgsSorted H1 ++ [E])) Fh) ++ [E]))
      (appliesNormalized H1
        (if E ∈ appliesArgsSorted H1 then appliesArgsSorted H1
         else appliesArgsSorted H1 ++ [E])) := by
  set A1 := appliesArgsSorted H1 with hA1
  set args1 := if E ∈ A1 then A1 else A1 ++ [E] with hargs1
  set F1 := nonApplies H1 with hF1
  set p := (firstAppliesIdx H1).getD 0 with hp0
  have he1 : appliesNormalized H1 args1
      = insertAt F1 p (HelperTypes.EXT_APPLIES_TO, args1) := rfl
  have hple : p ≤ F1.length := by
    rcases hfi : firstAppliesIdx H1 with _ | i
    · rw [hp0, hfi]
      exact Nat.zero_le _
    · rw [hp0, hfi]
      exact firstAppliesIdx_le H1 i hfi
  have hF1all : ∀ x ∈ F1, ¬ x.1 = HelperTypes.EXT_APPLIES_TO :=
    fun x hx => nonApplies_mem hx
  rcases foldAppendNew_structure Fh (appliesNormalized H1 args1)
    with ⟨ex, hex, hexm⟩
  have hexA : ∀ x ∈ ex, x.1 = HelperTypes.EXT_APPLIES_TO := by
    intro x hx
    by_contra hna
    rcases hexm x hx with ⟨hxF, hxnot⟩
    apply hxnot
    rw [he1]
    exact mem_insertAt_of_mem _ _ _ _
      (mem_nonApplies_of (hFh x hxF) hna)
  set H2 := foldAppendNew (appliesNormalized H1 args1) Fh with hH2
  have hH2eq : H2 = insertAt F1 p (HelperTypes.EXT_APPLIES_TO, args1) ++ ex := by
    rw [hex, he1]
  have hnon2 : nonApplies H2 = F1 := by
    rw [hH2eq, nonApplies_append, nonApplies_insertAt_applies,
      nonApplies_of_all_applies ex hexA, List.append_nil, hF1,
      nonApplies, nonApplies, List.filter_filter]
    apply List.filter_congr
    intro a _
    simp
  have hfi2 : firstAppliesIdx H2 = some p := by
    rw [hH2eq]
    exact firstAppliesIdx_insertAt_append args1 ex p F1 hF1all hple
  have hargsmem : ∀ x, x ∈ appliesArgsSorted H2 ↔ x ∈ args1 := by
    intro x
    rw [appliesArgsSorted, mem_sortedSet, mem_appliesArgsRaw]
    constructor
    · rintro ⟨h, hmem, ha, hx⟩
      rw [hH2eq] at hmem
      rcases List.mem_append.mp hmem with h2 | h2
      · rcases (mem_insertAt_iff _ _ _ _).mp h2 with h3 | h3
        · subst h3
          exact hx
        · exact absurd ha (hF1all h h3)
      · -- an extra applies helper from the fragment: its args already occur in A1
        rcases hexm h h2 with ⟨hhF, _⟩
        have : x ∈ appliesArgsRaw H1 :=
          (mem_appliesArgsRaw H1 x).mpr ⟨h, hFh h hhF, ha, hx⟩
        have hxA1 : x ∈ A1 := by
          rw [hA1, appliesArgsSorted, mem_sortedSet]
          exact this
        exact (mem_args1_iff E A1 x).mpr (Or.inl hxA1)
    · intro hx
      refine ⟨(HelperTypes.EXT_APPLIES_TO, args1), ?_, rfl, hx⟩
      rw [hH2eq]
      exact List.mem_append.mpr
        (Or.inl ((mem_insertAt_iff _ _ _ _).mpr (Or.inl rfl)))
  have hE2 : E ∈ appliesArgsSorted H2 :=
    (hargsmem E).mpr (engine_mem_args1 E A1)
  have hperm : (appliesArgsSorted H2).Perm args1 := by
    apply List.perm_of_nodup_nodup_toFinset_eq
    · rw [appliesArgsSorted]
      exact sortedSet_nodup _
    · exact args1_nodup E A1 (by rw [hA1, appliesArgsSorted]; exact sortedSet_nodup _)
    · apply Finset.ext
      intro x
      simp only [List.mem_toFinset]
      exact hargsmem x
  rw [if_pos hE2, appliesNormalized_eq, hnon2, hfi2, he1]
  exact helpersEquiv_insertAt F1 p _ _ hperm

/-- C3 amended: for an untagged fragment (every definition carrying the
empty tag set, with dict-unique key names — the shape section 4.4 of the
spec assumes for imports), importing twice in sequence produces an
entity identical to importing once in every field except the applies-to
helper's argument list, which the second run re-sorts: the two argument
lists are permutations of each other, at the same helper position. -/
theorem c3_amended {V : Type} [DecidableEq V] (E : String)
    (old : Option (EntityDef V)) (F : EntityDef V) (hF : untaggedEnt F) :
    entEquivUpToApplies (importEntity E (some (importEntity E old F)) F)
      (importEntity E old F) := by
  obtain ⟨hkv, hin, hout⟩ := hF
  rcases old with _ | o
  · have hsub : isSubstr F.desc (importEntity E none F).desc = true :=
      isSubstr_self F.desc
    refine ⟨rfl, rfl, ?_, ?_, ?_, ?_, ?_, ?_⟩
    · show (if isSubstr F.desc (importEntity E none F).desc = true
          then (importEntity E none F).desc
          else (importEntity E none F).desc ++ "|||" ++ F.desc)
        = (importEntity E none F).desc
      rw [if_pos hsub]
    · show foldAppendNew (importEntity E none F).bases F.bases
        = (importEntity E none F).bases
      exact foldAppendNew_eq_self _ _ (fun b hb => hb)
    · show mergeCat E F.keyvalues F.keyvalues = F.keyvalues
      exact mergeCat_id E _ _ (mergeCat_h1_self E F.keyvalues hkv.1 hkv.2)
        (fun p hp hnp => absurd (List.mem_map.mpr ⟨p, hp, rfl⟩) hnp)
    · show mergeCat E F.inputs F.inputs = F.inputs
      exact mergeCat_id E _ _ (mergeCat_h1_self E F.inputs hin.1 hin.2)
        (fun p hp hnp => absurd (List.mem_map.mpr ⟨p, hp, rfl⟩) hnp)
    · show mergeCat E F.outputs F.outputs = F.outputs
      exact mergeCat_id E _ _ (mergeCat_h1_self E F.outputs hout.1 hout.2)
        (fun p hp hnp => absurd (List.mem_map.mpr ⟨p, hp, rfl⟩) hnp)
    · exact helpers_second_equiv E F.helpers F.helpers (fun h hh => hh)
  · have hsub : isSubstr F.desc (importEntity E (some o) F).desc = true :=
      mergeEntity_desc_substr E o F
    refine ⟨rfl, rfl, ?_, ?_, ?_, ?_, ?_, ?_⟩
    · show (if isSubstr F.desc (importEntity E (some o) F).desc = true
          then (importEntity E (some o) F).desc
          else (importEntity E (some o) F).desc ++ "|||" ++ F.desc)
        = (importEntity E (some o) F).desc
      rw [if_pos hsub]
    · show foldAppendNew (importEntity E (some o) F).bases F.bases
        = (importEntity E (some o) F).bases
      exact foldAppendNew_eq_self _ _
        (fun b hb => foldAppendNew_mem_new F.bases o.bases b hb)
    · show mergeCat E (mergeCat E o.keyvalues F.keyvalues) F.keyvalues
        = mergeCat E o.keyvalues F.keyvalues
      exact mergeCat_id E _ _ (mergeCat_h1 E o.keyvalues F.keyvalues hkv.1 hkv.2)
        (mergeCat_h2 E o.keyvalues F.keyvalues)
    · show mergeCat E (mergeCat E o.inputs F.inputs) F.inputs
        = mergeCat E o.inputs F.inputs
      exact mergeCat_id E _ _ (mergeCat_h1 E o.inputs F.inputs hin.1 hin.2)
        (mergeCat_h2 E o.inputs F.inputs)
    · show mergeCat E (mergeCat E o.outputs F.outputs) F.outputs
        = mergeCat E o.outputs F.outputs
      exact mergeCat_id E _ _ (mergeCat_h1 E o.outputs F.outputs hout.1 hout.2)
        (mergeCat_h2 E o.outputs F.outputs)
    · exact helpers_second_equiv E (foldAppendNew o.helpers F.helpers) F.helpers
        (fun h hh => foldAppendNew_mem_new F.helpers o.helpers h hh)

/-- C3 counterexample: importing the same untagged fragment twice is not
literally idempotent — the second run re-sorts the applies-to argument
list that the first run produced by appending the engine tag to the
sorted old arguments, so the helper lists differ in argument order. -/
theorem c3_counterexample :
    importEntity "EP1" (some (importEntity "EP1" (some (dbEntX "V1"))
        (fragEntX "V1"))) (fragEntX "V1")
      ≠ importEntity "EP1" (some (dbEntX "V1")) (fragEntX "V1") ∧
    (importEntity "EP1" (some (importEntity "EP1" (some (dbEntX "V1"))
        (fragEntX "V1"))) (fragEntX "V1")).helpers
      = [(HelperTypes.EXT_APPLIES_TO, ["EP1", "HL2"])] ∧
    (importEntity "EP1" (some (dbEntX "V1")) (fragEntX "V1")).helpers
      = [(HelperTypes.EXT_APPLIES_TO, ["HL2", "EP1"])] := by
  refine ⟨by decide, by decide, by decide⟩

/-- Witness for C3 amended at the concrete scenario entities. -/
theorem c3_amended_witness :
    untaggedEnt (fragEntX "V1") ∧
    entEquivUpToApplies
      (importEntity "EP1" (some (importEntity "EP1" (some (dbEntX "V1"))
        (fragEntX "V1"))) (fragEntX "V1"))
      (importEntity "EP1" (some (dbEntX "V1")) (fragEntX "V1")) :=
  ⟨by decide,
   c3_amended "EP1" (some (dbEntX "V1")) (fragEntX "V1") (by decide)⟩
